import Mathlib

/-!
# Creative: verification of `main.js`

A shallow embedding of the page script `src/main.js` (price parsing, booking totals,
reveal-on-scroll, submit/validation button states, scroll spy) together with the
parts of the JavaScript runtime the script relies on (binary64 Number values,
`parseInt`, `Number`, Number-to-String, a backtracking matcher for the pattern
fragment used by the script).

Conventions of the embedding:

* A JavaScript string is a `String`, read as the list of its characters. The script looks
  only for `$`, `.`, the decimal digits, signs and white space, all of which are single
  UTF-16 code units outside the surrogate range, so scanning by character and scanning by
  code unit find the same matches.
* An element that `getElementById` or `querySelector` may fail to find is an `Option`.
* Elements that are told apart only by identity (reveal targets, form controls,
  navigation links) are identifiers or list positions.
* A handler is a function from the state before to the state after; the browser side
  (which events can arrive) is an explicit event type with a step function.
-/

namespace Creative

/-! ## Number values (IEEE-754 binary64) -/

/-- A JavaScript Number. `fin neg m e` is the finite value `(-1)^neg * m * 2^e`, stored in
the binary64 layout: `m < 2^53`, `-1074 ≤ e ≤ 971`, and `2^52 ≤ m` unless `e = -1074`
(subnormals and the two zeros). -/
inductive JSNum where
  | nan
  | inf (neg : Bool)
  | fin (neg : Bool) (m : Nat) (e : Int)
  deriving DecidableEq, Repr

/-- Nearest integer to `n / d`, ties to the even neighbour. -/
def roundHalfEven (n d : Nat) : Nat :=
  let q := n / d
  let r := n % d
  if 2 * r < d then q
  else if d < 2 * r then q + 1
  else if q % 2 = 0 then q else q + 1

/-- Numerator of `(n / d) / 2^e`. -/
def scaleNum (n : Nat) (e : Int) : Nat :=
  if e < 0 then n * 2 ^ e.natAbs else n

/-- Denominator of `(n / d) / 2^e`. -/
def scaleDen (d : Nat) (e : Int) : Nat :=
  if e < 0 then d else d * 2 ^ e.toNat

/-- Binary logarithm with explicit fuel: the number of halvings that bring `n` below 2. -/
def log2Fuel : Nat → Nat → Nat
  | 0, _ => 0
  | fuel + 1, n => if n < 2 then 0 else log2Fuel fuel (n / 2) + 1

/-- Floor of the binary logarithm (`0` at `0`). -/
def ilog2 (n : Nat) : Nat := log2Fuel n n

/-- The binary64 exponent of the positive rational `n / d`: the `e ≥ -1074` with
`2^52 ≤ (n / d) / 2^e < 2^53` (or `e = -1074` in the subnormal range). -/
def binExponent (n d : Nat) : Int :=
  let e0 : Int := (ilog2 n : Int) - (ilog2 d : Int) - 52
  let e1 : Int := if scaleNum n e0 < 2 ^ 52 * scaleDen d e0 then e0 - 1 else e0
  max e1 (-1074)

/-- The Number value for the rational `(-1)^neg * n / d` (`d > 0`): round to nearest
binary64, ties to even, overflow to infinity. -/
def toF64 (neg : Bool) (n d : Nat) : JSNum :=
  if n = 0 then .fin neg 0 (-1074)
  else
    let e := binExponent n d
    let m := roundHalfEven (scaleNum n e) (scaleDen d e)
    let m1 := if m = 2 ^ 53 then 2 ^ 52 else m
    let e1 := if m = 2 ^ 53 then e + 1 else e
    if 971 < e1 then .inf neg else .fin neg m1 e1

/-- The Number value of a natural number literal. -/
def JSNum.ofNat (n : Nat) : JSNum := toF64 false n 1

/-- Search upward for the least `p ≥ 1` with `n < d * 10^p`. -/
def decExpUp (n d : Nat) : Nat → Nat → Nat
  | 0, p => p
  | fuel + 1, p => if n < d * 10 ^ p then p else decExpUp n d fuel (p + 1)

/-- Search for the least `q` with `d ≤ n * 10^(q+1)`. -/
def decExpDown (n d : Nat) : Nat → Nat → Nat
  | 0, q => q
  | fuel + 1, q => if d ≤ n * 10 ^ (q + 1) then q else decExpDown n d fuel (q + 1)

/-- The decimal exponent `p` of the positive rational `n / d`: `10^(p-1) ≤ n / d < 10^p`. -/
def decExponent (n d : Nat) : Int :=
  if d ≤ n then (decExpUp n d 400 1 : Nat) else - (decExpDown n d 400 0 : Nat)

/-- Numerator of `(n / d) / 10^t`. -/
def scaleNum10 (n : Nat) (t : Int) : Nat :=
  if t < 0 then n * 10 ^ t.natAbs else n

/-- Denominator of `(n / d) / 10^t`. -/
def scaleDen10 (d : Nat) (t : Int) : Nat :=
  if t < 0 then d else d * 10 ^ t.toNat

/-- The `k`-digit candidates for the shortest decimal that reads back as `x = n / d > 0`:
the two multiples of `10^(p-k)` around `n / d`; the result is the digit string `s` and the
decimal exponent of `s * 10^(p-k)`, the closer candidate first, an even `s` on a tie. -/
def shortestAt (x : JSNum) (n d : Nat) (p : Int) (k : Nat) : Option (Nat × Int) :=
  let t : Int := p - k
  let num := scaleNum10 n t
  let den := scaleDen10 d t
  let j := num / den
  let lowOk : Bool := decide (toF64 false (scaleNum10 j (-t)) (scaleDen10 1 (-t)) = x)
  let highOk : Bool := decide (toF64 false (scaleNum10 (j + 1) (-t)) (scaleDen10 1 (-t)) = x)
  let preferLow : Bool :=
    decide (2 * num < (2 * j + 1) * den) || (decide (2 * num = (2 * j + 1) * den) && j % 2 == 0)
  let pick : Option Nat :=
    if lowOk && highOk then (if preferLow then some j else some (j + 1))
    else if lowOk then some j
    else if highOk then some (j + 1)
    else none
  match pick with
  | none => none
  | some s => if s = 10 ^ k then some (10 ^ (k - 1), p + 1) else some (s, p)

/-- Try `k = k0, k0 + 1, ...` digits until a candidate reads back as `x`. -/
def shortestFrom (x : JSNum) (n d : Nat) (p : Int) : Nat → Nat → Option (Nat × Int)
  | 0, _ => none
  | fuel + 1, k =>
    match shortestAt x n d p k with
    | some r => some r
    | none => shortestFrom x n d p fuel (k + 1)

/-- A run of `n` characters `'0'`. -/
def zeros (n : Nat) : List Char := List.replicate n '0'

/-- Number::toString layout (radix 10) of the digits `ds` of `s` with decimal exponent `p`. -/
def layoutDecimal (ds : List Char) (p : Int) : List Char :=
  let k : Int := ds.length
  if k ≤ p ∧ p ≤ 21 then ds ++ zeros (p - k).toNat
  else if 0 < p ∧ p ≤ 21 then ds.take p.toNat ++ '.' :: ds.drop p.toNat
  else if -6 < p ∧ p ≤ 0 then '0' :: '.' :: (zeros (-p).toNat ++ ds)
  else
    let e : Int := p - 1
    let sign : Char := if e < 0 then '-' else '+'
    let ex : List Char := Nat.toDigits 10 e.natAbs
    match ds with
    | [c] => c :: 'e' :: sign :: ex
    | c :: cs => c :: '.' :: (cs ++ 'e' :: sign :: ex)
    | [] => []

/-- Number::toString with radix 10, as used by `String(x)` and template literals: the
shortest decimal that reads back as the same Number, the one closest to it when several
of that length do. -/
def JSNum.toJSString : JSNum → String
  | .nan => "NaN"
  | .inf neg => if neg then "-Infinity" else "Infinity"
  | .fin neg m e =>
    if m = 0 then "0"
    else
      let n := scaleNum m (-e)
      let d := scaleDen 1 (-e)
      let body : List Char :=
        match shortestFrom (.fin false m e) n d (decExponent n d) 17 1 with
        | some (s, p) => layoutDecimal (Nat.toDigits 10 s) p
        | none => []
      String.mk (if neg then '-' :: body else body)

/-! ## Strings to Numbers -/

/-- Value of a decimal digit character. -/
def digitVal (c : Char) : Nat := c.toNat - 48

/-- Value of a run of decimal digits, most significant first. -/
def digitsVal (ds : List Char) : Nat := ds.foldl (fun acc c => 10 * acc + digitVal c) 0

/-- StringToNumber on unsigned decimal literals without exponent part: `DecimalDigits`,
`DecimalDigits . DecimalDigits?` and `. DecimalDigits`; the empty string is `+0`. The
mathematical value is rounded to the nearest Number (the language lets an engine drop the
digits after the 20th significant one first; the engines in use round the full value, as
done here). The price pattern captures only such literals; strings outside this fragment
(signs, exponents, white space, other radixes) are sent to `NaN`. -/
def Number (lit : List Char) : JSNum :=
  let ip := lit.takeWhile Char.isDigit
  match lit.dropWhile Char.isDigit with
  | [] => toF64 false (digitsVal ip) 1
  | c :: fp =>
    if c = '.' ∧ (ip ≠ [] ∨ fp ≠ []) ∧ fp.all Char.isDigit then
      toF64 false (digitsVal (ip ++ fp)) (10 ^ fp.length)
    else .nan

/-- The fragment of the pattern language that the script's one regular expression uses. -/
inductive Pat where
  | char (c : Char)
  | digit
  | seq (a b : Pat)
  | plus (a : Pat)
  | opt (a : Pat)
  | group (a : Pat)

/-- Matcher state: the input still to be read and the text of capture group 1. -/
structure MState where
  rest : List Char
  cap1 : Option (List Char)
  deriving DecidableEq, Repr

/-- A matcher takes a state and a continuation, and backtracks through `none`. -/
abbrev Matcher := MState → (MState → Option MState) → Option MState

/-- Greedy `*` after the first iteration of `+`: try one more iteration (which has to
consume input), and fall back to the continuation. -/
def repeatGreedy (body : Matcher) : Nat → Matcher
  | 0, st, k => k st
  | fuel + 1, st, k =>
    match body st (fun st1 =>
        if st1.rest.length = st.rest.length then none else repeatGreedy body fuel st1 k) with
    | some r => some r
    | none => k st

/-- The backtracking matcher of a pattern. -/
def Pat.run : Pat → Matcher
  | .char c, st, k =>
    match st.rest with
    | x :: xs => if x = c then k { st with rest := xs } else none
    | [] => none
  | .digit, st, k =>
    match st.rest with
    | x :: xs => if x.isDigit then k { st with rest := xs } else none
    | [] => none
  | .seq a b, st, k => a.run st (fun st1 => b.run st1 k)
  | .plus a, st, k => a.run st (fun st1 => repeatGreedy a.run st1.rest.length st1 k)
  | .opt a, st, k =>
    match a.run st k with
    | some r => some r
    | none => k st
  | .group a, st, k =>
    a.run st (fun st1 =>
      k { st1 with cap1 := some (st.rest.take (st.rest.length - st1.rest.length)) })

/-- Search for the leftmost match: try the pattern at index 0, 1, ..., up to the end. -/
def execFrom (p : Pat) : List Char → Option MState
  | [] => p.run ⟨[], none⟩ some
  | c :: cs =>
    match p.run ⟨c :: cs, none⟩ some with
    | some r => some r
    | none => execFrom p cs

/-- The pattern `/\$(\d+(?:\.\d+)?)/`; the non-capturing group only brackets the
sequence that `?` applies to. -/
def pricePattern : Pat :=
  .seq (.char '$') (.group (.seq (.plus .digit) (.opt (.seq (.char '.') (.plus .digit)))))

/-! ## Utilities (`main.js`, lines 17-21) -/

/-- Source `parsePriceFromString(str)`; `none` is an absent argument. -/
def parsePriceFromString (str : Option String) : JSNum :=
  match str with
  | none => JSNum.ofNat 15
  | some s =>
    if s = "" then JSNum.ofNat 15
    else
      match execFrom pricePattern s.data with
      | some m =>
        match m.cap1 with
        | some lit => Number lit
        | none => .nan
      | none => JSNum.ofNat 15

/-! ## Price elements (`main.js`, lines 5-12, 26-54) -/

/-- The elements looked up by id when the page loads; `none` is a missing element. Each
field holds the one property of the element that the script reads or writes. -/
structure PriceDom where
  /-- Element `#workshopType`: the `value` of the selector. -/
  workshopTypeEl : Option String
  /-- Element `#workshopPrice`: its `textContent`. -/
  workshopPriceEl : Option String
  /-- Element `#workshopTotalPrice`: its `value`. -/
  workshopHiddenPriceEl : Option String
  /-- Element `#service`: the `value` of the selector. -/
  serviceEl : Option String
  /-- Element `#hours`: its `value`. -/
  hoursEl : Option String
  /-- Element `#totalCost`: its `textContent`. -/
  totalCostEl : Option String
  /-- Element `#bookingTotalPrice`: its `value`. -/
  bookingHiddenPriceEl : Option String
  deriving DecidableEq, Repr

/-- Source `updateWorkshopPrice()`. -/
def updateWorkshopPrice (d : PriceDom) : PriceDom :=
  match d.workshopTypeEl, d.workshopPriceEl with
  | some v, some _ =>
    let value : String := if v = "" then "" else v
    let price := parsePriceFromString (some value)
    { d with
      workshopPriceEl := some ("Price: $" ++ price.toJSString)
      workshopHiddenPriceEl :=
        match d.workshopHiddenPriceEl with
        | some _ => some price.toJSString
        | none => none }
  | _, _ => d

/-- What `setupRevealOnScroll` reads from `window`. -/
structure RevealEnv where
  /-- The `matches` flag of `window.matchMedia('(prefers-reduced-motion: reduce)')`;
  `none` when `window.matchMedia` is missing. -/
  matchMedia : Option Bool
  /-- The test `'IntersectionObserver' in window`. -/
  hasIntersectionObserver : Bool
  deriving DecidableEq, Repr

/-- The elements that carry the class `reveal-visible` and the observation targets of the
reveal observer; `α` is the type of element identities. -/
structure RevealState (α : Type) where
  visible : List α
  observed : List α
  deriving DecidableEq, Repr

/-- An intersection entry: its target and its `isIntersecting` flag. -/
structure RevealEntry (α : Type) where
  target : α
  isIntersecting : Bool
  deriving DecidableEq, Repr

/-- Adding a token to a class list, or a target to an observer: no duplicate is stored. -/
def addOnce {α : Type} [DecidableEq α] (l : List α) (a : α) : List α :=
  if a ∈ l then l else l ++ [a]

/-- The observer callback on one entry (lines 71-74). -/
def revealEntry {α : Type} [DecidableEq α] (st : RevealState α) (entry : RevealEntry α) :
    RevealState α :=
  if entry.isIntersecting then
    { visible := addOnce st.visible entry.target
      observed := st.observed.filter (fun x => decide (x ≠ entry.target)) }
  else st

/-- The observer callback on a batch of entries (lines 69-75). -/
def revealCallback {α : Type} [DecidableEq α] (st : RevealState α)
    (entries : List (RevealEntry α)) : RevealState α :=
  entries.foldl revealEntry st

/-- Source `setupRevealOnScroll()`: `revealEls` is the result of
`querySelectorAll('.reveal')`, `visible` the elements that carry `reveal-visible` before
the call. -/
def setupRevealOnScroll {α : Type} [DecidableEq α] (env : RevealEnv) (revealEls : List α)
    (visible : List α) : RevealState α :=
  let prefersReduce : Bool :=
    match env.matchMedia with
    | some m => m
    | none => false
  if prefersReduce || !env.hasIntersectionObserver || revealEls.length == 0 then
    { visible := revealEls.foldl addOnce visible, observed := [] }
  else
    { visible := visible, observed := revealEls.foldl addOnce [] }

/-- The callback run on a sequence of batches, one after the other. -/
def revealRun {α : Type} [DecidableEq α] (st : RevealState α)
    (batches : List (List (RevealEntry α))) : RevealState α :=
  batches.foldl revealCallback st

/-- The states passed through while the entries are processed one by one, the start state
first. -/
def revealTrace {α : Type} [DecidableEq α] (st : RevealState α) :
    List (RevealEntry α) → List (RevealState α)
  | [] => [st]
  | entry :: rest => st :: revealTrace (revealEntry st entry) rest

/-- Number of steps of a trace at which `a` goes from not marked to marked. -/
def markings {α : Type} [DecidableEq α] (a : α) : List (RevealState α) → Nat
  | s :: t :: rest =>
    (if a ∉ s.visible ∧ a ∈ t.visible then 1 else 0) + markings a (t :: rest)
  | _ => 0

/-- Number of steps of a trace at which `a` goes from marked to not marked. -/
def unmarkings {α : Type} [DecidableEq α] (a : α) : List (RevealState α) → Nat
  | s :: t :: rest =>
    (if a ∈ s.visible ∧ a ∉ t.visible then 1 else 0) + unmarkings a (t :: rest)
  | _ => 0

/-! ## Form submit states and validation (`main.js`, lines 86-130) -/

/-- The submit button of a form. -/
structure SubmitButton where
  textContent : String
  disabled : Bool
  /-- The slot `dataset.originalText`; `none` while the data attribute is not set. -/
  originalText : Option String
  deriving DecidableEq, Repr

/-- A form element; `V` is the type of the content of its controls. -/
structure Form (V : Type) where
  /-- The result of `form.querySelector('button[type="submit"]')`; `none` when there is no
  such button. -/
  submitBtn : Option SubmitButton
  /-- The result of `form.querySelectorAll('input, select, textarea')`, as element identities. -/
  inputs : List Nat
  /-- The current content of the controls of the form. -/
  content : V
  /-- The `aria-busy` attribute; `none` when the attribute is not set. -/
  ariaBusy : Option String
  deriving DecidableEq, Repr

/-- The listener of the `submit` event, up to the `setTimeout` call (lines 95-100). -/
def submitListener {V : Type} (form : Form V) : Form V :=
  { form with
    submitBtn :=
      match form.submitBtn with
      | some b =>
        some { textContent := "Sending..."
               disabled := true
               originalText := some (if b.textContent = "" then "" else b.textContent) }
      | none => none
    ariaBusy := some "true" }

/-- The callback passed to `setTimeout(…, 6000)` (lines 103-107). -/
def restoreCallback {V : Type} (form : Form V) : Form V :=
  { form with
    submitBtn :=
      match form.submitBtn with
      | some b =>
        some { b with
               textContent :=
                 match b.originalText with
                 | some t => if t = "" then "Submit" else t
                 | none => "Submit"
               disabled := false }
      | none => none
    ariaBusy := none }

/-- Source `updateState` (lines 118-121); `checkValidity` is the validity check of the
browser on the content of the controls. -/
def updateState {V : Type} (checkValidity : V → Bool) (form : Form V) : Form V :=
  match form.submitBtn with
  | none => form
  | some b => { form with submitBtn := some { b with disabled := !checkValidity form.content } }

/-- The two forms known to the script. -/
inductive FormId where
  | bookingForm
  | workshopForm
  deriving DecidableEq, Repr

/-- The two event types that `applyValidation` listens to. -/
inductive FieldEventType where
  | input
  | change
  deriving DecidableEq, Repr

/-- A registered listener `updateState` of `form` on the element `target`. -/
structure FieldListener where
  target : Nat
  type : FieldEventType
  form : FormId
  deriving DecidableEq, Repr

/-- The part of the page the form code works on. -/
structure Page (V : Type) where
  /-- The result of `document.getElementById('bookingForm')`. -/
  bookingForm : Option (Form V)
  /-- The result of `document.getElementById('workshopForm')`. -/
  workshopForm : Option (Form V)
  /-- The `input` and `change` listeners registered by `applyValidation`. -/
  fieldListeners : List FieldListener
  /-- The forms with a registered `submit` listener, one item per listener. -/
  submitListeners : List FormId
  /-- The pending restore callbacks, one item per `setTimeout` call not yet fired. -/
  timers : List FormId
  deriving DecidableEq, Repr

/-- The form with the given id, if the page has it. -/
def Page.getForm {V : Type} (p : Page V) : FormId → Option (Form V)
  | .bookingForm => p.bookingForm
  | .workshopForm => p.workshopForm

/-- Apply `f` to the form with the given id, if the page has it. -/
def Page.modifyForm {V : Type} (p : Page V) (id : FormId) (f : Form V → Form V) : Page V :=
  match id with
  | .bookingForm => { p with bookingForm := p.bookingForm.map f }
  | .workshopForm => { p with workshopForm := p.workshopForm.map f }

/-- Source `setupFormSubmitStates()`: a `submit` listener on each form that exists. -/
def setupFormSubmitStates {V : Type} (p : Page V) : Page V :=
  [FormId.bookingForm, FormId.workshopForm].foldl
    (fun q id =>
      match q.getForm id with
      | none => q
      | some _ => { q with submitListeners := q.submitListeners ++ [id] })
    p

/-- Source `applyValidation(form)`: listeners on every control, then one eager
`updateState()`. -/
def applyValidation {V : Type} (checkValidity : V → Bool) (p : Page V) (id : FormId) :
    Page V :=
  match p.getForm id with
  | none => p
  | some form =>
    let q : Page V :=
      { p with
        fieldListeners :=
          form.inputs.foldl
            (fun ls el => ls ++ [⟨el, .input, id⟩, ⟨el, .change, id⟩]) p.fieldListeners }
    q.modifyForm id (updateState checkValidity)

/-- Source `setupFormValidation()`. -/
def setupFormValidation {V : Type} (checkValidity : V → Bool) (p : Page V) : Page V :=
  applyValidation checkValidity (applyValidation checkValidity p .bookingForm) .workshopForm

/-- The form part of the load handler (lines 160-161). -/
def initForms {V : Type} (checkValidity : V → Bool) (p : Page V) : Page V :=
  setupFormValidation checkValidity (setupFormSubmitStates p)

/-- What the browser can deliver to the form code after load. -/
inductive PageEvent (V : Type) where
  /-- The user edits the control `target` of `form`, whose controls then hold `content`,
  and the event `type` is fired at `target`. -/
  | field (form : FormId) (target : Nat) (type : FieldEventType) (content : V)
  /-- The `submit` event of `form`; the browser fires it after its own validation of the
  form has passed. -/
  | submit (form : FormId)
  /-- A pending restore callback of `form` fires. -/
  | timer (form : FormId)

/-- Delivery of a field event: the content changes, then the matching listeners run in
registration order. -/
def dispatchField {V : Type} (checkValidity : V → Bool) (p : Page V) (id : FormId)
    (target : Nat) (type : FieldEventType) (content : V) : Page V :=
  let q := p.modifyForm id (fun form => { form with content := content })
  (q.fieldListeners.filter (fun l => decide (l.target = target ∧ l.type = type))).foldl
    (fun r l => r.modifyForm l.form (updateState checkValidity)) q

/-- Delivery of a `submit` event: every registered listener of the form runs and schedules
its restore callback. -/
def dispatchSubmit {V : Type} (p : Page V) (id : FormId) : Page V :=
  (p.submitListeners.filter (fun f => decide (f = id))).foldl
    (fun r f => { r.modifyForm f submitListener with timers := r.timers ++ [f] }) p

/-- One event; `none` when the browser cannot deliver it in this state: a `submit` event
of a missing or invalid form, or a timer that is not pending. (A browser delivers `submit`
in fewer states still, for instance not through a disabled submit button; what is proved
for all runs of this step function holds for those runs too.) -/
def pageStep {V : Type} (checkValidity : V → Bool) (p : Page V) : PageEvent V → Option (Page V)
  | .field id target type content => some (dispatchField checkValidity p id target type content)
  | .submit id =>
    match p.getForm id with
    | some form => if checkValidity form.content then some (dispatchSubmit p id) else none
    | none => none
  | .timer id =>
    if id ∈ p.timers then
      some { p.modifyForm id restoreCallback with timers := p.timers.erase id }
    else none

/-- A sequence of events from a state. -/
def pageRun {V : Type} (checkValidity : V → Bool) : Page V → List (PageEvent V) → Option (Page V)
  | p, [] => some p
  | p, ev :: rest =>
    match pageStep checkValidity p ev with
    | some q => pageRun checkValidity q rest
    | none => none

/-! ## Scroll spy (`main.js`, lines 135-152) -/

/-- A navigation link: its `href` attribute and whether its class list has `active`. -/
structure NavLink where
  href : String
  active : Bool
  deriving DecidableEq, Repr

/-- An intersection entry of the scroll spy: the `id` of its target and the
`isIntersecting` flag. -/
structure SpyEntry where
  targetId : String
  isIntersecting : Bool
  deriving DecidableEq, Repr

/-- The key of a link in `linkMap`: `href.slice(1)`. -/
def fragment (l : NavLink) : String := String.mk (l.href.data.drop 1)

/-- The method `Map.prototype.set` on an association list: an existing key keeps its place and gets
the new value. -/
def mapSet (m : List (String × Nat)) (key : String) (value : Nat) : List (String × Nat) :=
  match m with
  | [] => [(key, value)]
  | (k, v) :: rest => if k = key then (k, value) :: rest else (k, v) :: mapSet rest key value

/-- The method `Map.prototype.get`. -/
def mapGet (m : List (String × Nat)) (key : String) : Option Nat :=
  match m with
  | [] => none
  | (k, v) :: rest => if k = key then some v else mapGet rest key

/-- The map `new Map(navLinks.map(a => [a.getAttribute('href').slice(1), a]))`: the links are
entered in document order, a link is stored as its index in `navLinks`. -/
def buildLinkMap (navLinks : List NavLink) : List (String × Nat) :=
  (navLinks.enum).foldl (fun m (il : Nat × NavLink) => mapSet m (fragment il.2) il.1) []

/-- The call `link.classList.add('active')` on the link stored as index `i`. -/
def activate : List NavLink → Nat → List NavLink
  | [], _ => []
  | l :: ls, 0 => { l with active := true } :: ls
  | l :: ls, i + 1 => l :: activate ls i

/-- The scroll-spy callback on one entry (lines 142-148). -/
def spyEntry (linkMap : List (String × Nat)) (navLinks : List NavLink) (entry : SpyEntry) :
    List NavLink :=
  match mapGet linkMap entry.targetId with
  | none => navLinks
  | some i =>
    if entry.isIntersecting then
      activate (navLinks.map (fun l => { l with active := false })) i
    else navLinks

/-- The index of the last link whose fragment is `key`. -/
def lastLinkIndex (key : String) : List NavLink → Option Nat
  | [] => none
  | l :: ls =>
    match lastLinkIndex key ls with
    | some j => some (j + 1)
    | none => if fragment l = key then some 0 else none

/-- The scroll-spy callback on a batch of entries (lines 140-150). -/
def spyCallback (linkMap : List (String × Nat)) (navLinks : List NavLink)
    (entries : List SpyEntry) : List NavLink :=
  entries.foldl (spyEntry linkMap) navLinks

/-- Source `setupScrollSpy()`: `none` when the function returns early, otherwise the link
map of the new observer and the `id`s of the observed sections. -/
def setupScrollSpy (hasIntersectionObserver : Bool) (sections : List String)
    (navLinks : List NavLink) : Option (List (String × Nat) × List String) :=
  if !hasIntersectionObserver || sections.length == 0 || navLinks.length == 0 then none
  else some (buildLinkMap navLinks, sections)

/-! ## Specification-side notions for the price parser -/

/-- A `$` immediately followed by a decimal digit starts the text. -/
def startsPrice (s : List Char) : Bool :=
  match s with
  | c :: d :: _ => decide (c = '$') && d.isDigit
  | _ => false

/-- The text has an occurrence of `$` immediately followed by a decimal digit. -/
def containsPrice : List Char → Bool
  | [] => false
  | c :: cs => startsPrice (c :: cs) || containsPrice cs

/-- The digits of the decimal fraction that follows the integer digits: the longest run of
digits after a `.`, empty when the text does not continue with `.` and a digit. -/
def fractionDigits (rest : List Char) : List Char :=
  match rest with
  | c :: r => if c = '.' then r.takeWhile Char.isDigit else []
  | [] => []

/-- The Number value of the decimal with integer digits `ds` and fraction digits `fs`:
the rational `digitsVal (ds ++ fs) / 10 ^ fs.length` rounded to binary64. -/
def decimalNumber (ds fs : List Char) : JSNum :=
  toF64 false (digitsVal (ds ++ fs)) (10 ^ fs.length)

/-- The Number value of the price that starts right after a `$`: the longest run of
digits, then the longest fraction. -/
def priceAfterDollar (tail : List Char) : JSNum :=
  decimalNumber (tail.takeWhile Char.isDigit) (fractionDigits (tail.dropWhile Char.isDigit))

/-! ## Specification-side notions for the booking total -/

/-- The capture group text of a match on `'$' :: tail`. -/
def priceLiteral (tail : List Char) : List Char :=
  let ds := tail.takeWhile Char.isDigit
  let fs := fractionDigits (tail.dropWhile Char.isDigit)
  if fs = [] then ds else ds ++ '.' :: fs

/-- The input left after a match on `'$' :: tail`. -/
def priceRest (tail : List Char) : List Char :=
  let rest := tail.dropWhile Char.isDigit
  let fs := fractionDigits rest
  if fs = [] then rest else (rest.drop 1).dropWhile Char.isDigit

/-- The exponent chosen before clamping to the subnormal range. -/
def rawExponent (n d : Nat) : Int :=
  let e0 : Int := (ilog2 n : Int) - (ilog2 d : Int) - 52
  if scaleNum n e0 < 2 ^ 52 * scaleDen d e0 then e0 - 1 else e0

/-- The form `id` exists, has a submit button and the controls `inputs`, and each control
has both `updateState` listeners of the form. -/
def Wired {V : Type} (p : Page V) (id : FormId) (inputs : List Nat) : Prop :=
  (∃ form b, p.getForm id = some form ∧ form.submitBtn = some b ∧ form.inputs = inputs) ∧
  ∀ t ∈ inputs, ∀ ty, (⟨t, ty, id⟩ : FieldListener) ∈ p.fieldListeners

/-- A function on forms that keeps the controls and the presence of the submit button. -/
def KeepsShape {V : Type} (f : Form V → Form V) : Prop :=
  ∀ form, (f form).inputs = form.inputs ∧
    ((∃ b, form.submitBtn = some b) → ∃ b, (f form).submitBtn = some b)

/-- The submit button of form `id` shows the validity of the content `v`. -/
def Tracks {V : Type} (cv : V → Bool) (p : Page V) (id : FormId) (v : V) : Prop :=
  ∃ form b, p.getForm id = some form ∧ form.submitBtn = some b ∧ form.content = v ∧
    b.disabled = !cv v

/-- The form `id` has a submit button and the content `v`. -/
def Holds {V : Type} (p : Page V) (id : FormId) (v : V) : Prop :=
  ∃ form b, p.getForm id = some form ∧ form.submitBtn = some b ∧ form.content = v

/-- A page with a booking form only: one control (element 0) whose content is whether its
required field is filled, a submit button labelled `Book now`, no listener, no timer. -/
def bookingOnlyPage : Page Bool :=
  { bookingForm := some
      { submitBtn := some ⟨"Book now", false, none⟩, inputs := [0], content := true,
        ariaBusy := none }
    workshopForm := none
    fieldListeners := []
    submitListeners := []
    timers := [] }

/-- The validity check of `bookingOnlyPage`: the required field is filled. -/
def requiredFilled (filled : Bool) : Bool := filled


/-- The Number `x` is the binary64 encoding of the integer `(-1)^neg * N`. -/
def ExactInt (x : JSNum) (neg : Bool) (N : Nat) : Prop :=
  ∃ Q : Nat, x = .fin neg (N * 2 ^ Q) (-(Q : Int)) ∧ 2 ^ 52 ≤ N * 2 ^ Q ∧ N * 2 ^ Q < 2 ^ 53

theorem run_digit_cons (x : Char) (xs : List Char) (cap : Option (List Char))
    (k : MState → Option MState) :
    Pat.digit.run ⟨x :: xs, cap⟩ k = if x.isDigit then k ⟨xs, cap⟩ else none := rfl

theorem run_digit_nil (cap : Option (List Char)) (k : MState → Option MState) :
    Pat.digit.run ⟨[], cap⟩ k = none := rfl

theorem run_char_cons (c x : Char) (xs : List Char) (cap : Option (List Char))
    (k : MState → Option MState) :
    (Pat.char c).run ⟨x :: xs, cap⟩ k = if x = c then k ⟨xs, cap⟩ else none := rfl

theorem run_char_nil (c : Char) (cap : Option (List Char)) (k : MState → Option MState) :
    (Pat.char c).run ⟨[], cap⟩ k = none := rfl

theorem run_seq (a b : Pat) (st : MState) (k : MState → Option MState) :
    (Pat.seq a b).run st k = a.run st (fun st1 => b.run st1 k) := rfl

theorem run_plus (a : Pat) (st : MState) (k : MState → Option MState) :
    (Pat.plus a).run st k =
      a.run st (fun st1 => repeatGreedy a.run st1.rest.length st1 k) := rfl

theorem run_opt (a : Pat) (st : MState) (k : MState → Option MState) :
    (Pat.opt a).run st k = (match a.run st k with | some r => some r | none => k st) := rfl

theorem run_group (a : Pat) (st : MState) (k : MState → Option MState) :
    (Pat.group a).run st k =
      a.run st (fun st1 =>
        k { st1 with cap1 := some (st.rest.take (st.rest.length - st1.rest.length)) }) := rfl

theorem repeatGreedy_succ (body : Matcher) (fuel : Nat) (st : MState)
    (k : MState → Option MState) :
    repeatGreedy body (fuel + 1) st k =
      (match body st (fun st1 =>
          if st1.rest.length = st.rest.length then none else repeatGreedy body fuel st1 k) with
        | some r => some r
        | none => k st) := rfl

theorem digit_run_none (st : MState) (k : MState → Option MState)
    (h : ∀ c, st.rest.head? = some c → c.isDigit = false) : Pat.digit.run st k = none := by
  rcases st with ⟨rest, cap⟩
  cases rest with
  | nil => rfl
  | cons x xs =>
    have hx : x.isDigit = false := h x (by simp)
    rw [run_digit_cons, hx]; rfl

theorem repeatGreedy_digits (k : MState → Option MState) (r : MState) (rest : List Char)
    (cap : Option (List Char)) (hrest : ∀ c, rest.head? = some c → c.isDigit = false)
    (hk : k ⟨rest, cap⟩ = some r) :
    ∀ (ds : List Char) (fuel : Nat), (∀ c ∈ ds, c.isDigit = true) → ds.length ≤ fuel →
      repeatGreedy Pat.digit.run fuel ⟨ds ++ rest, cap⟩ k = some r := by
  intro ds
  induction ds with
  | nil =>
    intro fuel _ _
    cases fuel with
    | zero => simpa [repeatGreedy] using hk
    | succ f =>
      rw [repeatGreedy_succ, List.nil_append, digit_run_none ⟨rest, cap⟩ _ hrest]
      exact hk
  | cons x xs ih =>
    intro fuel hds hlen
    cases fuel with
    | zero => simp at hlen
    | succ f =>
      have hx : x.isDigit = true := hds x (by simp)
      have hxs : ∀ c ∈ xs, c.isDigit = true := fun c hc => hds c (by simp [hc])
      have hf : xs.length ≤ f := by simpa using hlen
      have := ih f hxs hf
      rw [repeatGreedy_succ, List.cons_append, run_digit_cons, hx]
      simp [this]

theorem plus_digit_run (k : MState → Option MState) (r : MState) (ds rest : List Char)
    (cap : Option (List Char)) (hne : ds ≠ []) (hds : ∀ c ∈ ds, c.isDigit = true)
    (hrest : ∀ c, rest.head? = some c → c.isDigit = false) (hk : k ⟨rest, cap⟩ = some r) :
    (Pat.plus Pat.digit).run ⟨ds ++ rest, cap⟩ k = some r := by
  cases ds with
  | nil => exact absurd rfl hne
  | cons x xs =>
    have hx : x.isDigit = true := hds x (by simp)
    have hxs : ∀ c ∈ xs, c.isDigit = true := fun c hc => hds c (by simp [hc])
    have := repeatGreedy_digits k r rest cap hrest hk xs (xs ++ rest).length hxs (by simp)
    rw [run_plus, List.cons_append, run_digit_cons, hx]
    simpa using this

theorem plus_digit_none (st : MState) (k : MState → Option MState)
    (h : ∀ c, st.rest.head? = some c → c.isDigit = false) :
    (Pat.plus Pat.digit).run st k = none := by
  rw [run_plus]
  exact digit_run_none st _ h

/-- The text after the last digit of a maximal run does not start with a digit. -/
theorem head_dropWhile_isDigit (l : List Char) :
    ∀ c, (l.dropWhile Char.isDigit).head? = some c → c.isDigit = false := by
  intro c hc
  induction l with
  | nil => simp at hc
  | cons x xs ih =>
    by_cases hx : x.isDigit = true
    · rw [List.dropWhile_cons_of_pos hx] at hc
      exact ih hc
    · rw [List.dropWhile_cons_of_neg hx] at hc
      simp at hc
      subst hc
      simpa using hx

theorem takeWhile_all_isDigit (l : List Char) : ∀ c ∈ l.takeWhile Char.isDigit, c.isDigit = true :=
  fun _ hc => List.mem_takeWhile_imp hc

theorem priceLiteral_append_rest (tail : List Char) :
    priceLiteral tail ++ priceRest tail = tail := by
  unfold priceLiteral priceRest
  have h0 := List.takeWhile_append_dropWhile Char.isDigit tail
  by_cases hfs : fractionDigits (tail.dropWhile Char.isDigit) = []
  · simp [hfs]
  · simp only [hfs, if_false]
    generalize hrest : tail.dropWhile Char.isDigit = rest at *
    cases rest with
    | nil => simp [fractionDigits] at hfs
    | cons c r =>
      by_cases hc : c = '.'
      · subst hc
        simp only [fractionDigits, if_true, List.drop_succ_cons, List.drop_zero]
        rw [List.append_assoc, List.cons_append, List.takeWhile_append_dropWhile]
        exact h0
      · simp [fractionDigits, hc] at hfs

theorem take_length_sub (l r : List Char) :
    (l ++ r).take ((l ++ r).length - r.length) = l := by
  simp

theorem fraction_run (tail rest : List Char) (hrest : rest = tail.dropWhile Char.isDigit) :
    (Pat.opt (Pat.seq (Pat.char '.') (Pat.plus Pat.digit))).run ⟨rest, none⟩
      (fun st1 =>
        some { st1 with cap1 := some (tail.take (tail.length - st1.rest.length)) }) =
      some ⟨priceRest tail, some (priceLiteral tail)⟩ := by
  have hsplit := priceLiteral_append_rest tail
  have htake : tail.take (tail.length - (priceRest tail).length) = priceLiteral tail := by
    have := take_length_sub (priceLiteral tail) (priceRest tail)
    rwa [hsplit] at this
  rw [run_opt, run_seq]
  by_cases hfs : fractionDigits rest = []
  · have hR : priceRest tail = rest := by simp [priceRest, ← hrest, hfs]
    have hnone : (Pat.char '.').run ⟨rest, none⟩ (fun st1 =>
        (Pat.plus Pat.digit).run st1 (fun st1 =>
          some { st1 with cap1 := some (tail.take (tail.length - st1.rest.length)) })) = none := by
      cases rest with
      | nil => rfl
      | cons c r =>
        rw [run_char_cons]
        by_cases hc : c = '.'
        · rw [if_pos hc]
          apply plus_digit_none
          intro x hx
          simp only [fractionDigits, hc, if_true] at hfs
          cases r with
          | nil => simp at hx
          | cons y ys =>
            simp at hx
            subst hx
            by_contra hy
            simp at hy
            rw [List.takeWhile_cons_of_pos hy] at hfs
            simp at hfs
        · rw [if_neg hc]
    rw [hnone]
    simp only
    rw [← hR, htake]
  · cases rest with
    | nil => simp [fractionDigits] at hfs
    | cons c r =>
      by_cases hc : c = '.'
      · subst hc
        simp only [fractionDigits, if_true] at hfs
        have hR : priceRest tail = r.dropWhile Char.isDigit := by
          simp [priceRest, ← hrest, fractionDigits, hfs]
        rw [run_char_cons, if_pos rfl]
        have hrun := plus_digit_run
          (fun st1 =>
            some { st1 with cap1 := some (tail.take (tail.length - st1.rest.length)) })
          ⟨priceRest tail, some (priceLiteral tail)⟩
          (r.takeWhile Char.isDigit) (r.dropWhile Char.isDigit) none hfs
          (takeWhile_all_isDigit r) (head_dropWhile_isDigit r)
          (by simp only; rw [← hR, htake])
        rw [List.takeWhile_append_dropWhile] at hrun
        rw [hrun]
      · simp [fractionDigits, hc] at hfs

theorem pricePattern_run (tail : List Char) (h : startsPrice ('$' :: tail) = true) :
    pricePattern.run ⟨'$' :: tail, none⟩ some =
      some ⟨priceRest tail, some (priceLiteral tail)⟩ := by
  have hds : tail.takeWhile Char.isDigit ≠ [] := by
    cases tail with
    | nil => simp [startsPrice] at h
    | cons x xs =>
      have hx : x.isDigit = true := by simpa [startsPrice] using h
      rw [List.takeWhile_cons_of_pos hx]
      simp
  unfold pricePattern
  rw [run_seq, run_char_cons, if_pos rfl, run_group, run_seq]
  have hrun := plus_digit_run
    (fun st1 => (Pat.opt (Pat.seq (Pat.char '.') (Pat.plus Pat.digit))).run st1
      (fun st1 =>
        some { st1 with cap1 := some (tail.take (tail.length - st1.rest.length)) }))
    ⟨priceRest tail, some (priceLiteral tail)⟩
    (tail.takeWhile Char.isDigit) (tail.dropWhile Char.isDigit) none hds
    (takeWhile_all_isDigit tail) (head_dropWhile_isDigit tail)
    (fraction_run tail _ rfl)
  rw [List.takeWhile_append_dropWhile] at hrun
  exact hrun

theorem pricePattern_run_none (s : List Char) (cap : Option (List Char))
    (k : MState → Option MState) (h : startsPrice s = false) :
    pricePattern.run ⟨s, cap⟩ k = none := by
  unfold pricePattern
  rw [run_seq]
  cases s with
  | nil => rfl
  | cons x xs =>
    rw [run_char_cons]
    by_cases hx : x = '$'
    · rw [if_pos hx, run_group, run_seq]
      apply plus_digit_none
      intro c hc
      cases xs with
      | nil => simp at hc
      | cons y ys =>
        simp at hc
        subst hc
        simpa [startsPrice, hx] using h
    · rw [if_neg hx]

theorem execFrom_cons (p : Pat) (c : Char) (cs : List Char) :
    execFrom p (c :: cs) =
      (match p.run ⟨c :: cs, none⟩ some with
        | some r => some r
        | none => execFrom p cs) := rfl

theorem execFrom_none (s : List Char) (h : containsPrice s = false) :
    execFrom pricePattern s = none := by
  induction s with
  | nil => exact pricePattern_run_none [] none some rfl
  | cons c cs ih =>
    simp only [containsPrice, Bool.or_eq_false_iff] at h
    simp only [execFrom]
    rw [pricePattern_run_none _ _ _ h.1]
    exact ih h.2

theorem startsPrice_append_dollar (p : Char) (ps tail : List Char)
    (h : startsPrice (p :: ps) = false) :
    startsPrice (p :: ps ++ '$' :: tail) = false := by
  cases ps with
  | nil =>
    have : ('$' : Char).isDigit = false := by decide
    simp [startsPrice, this]
  | cons q qs => simpa [startsPrice] using h

theorem execFrom_first (pre tail : List Char) (hpre : containsPrice pre = false)
    (htail : startsPrice ('$' :: tail) = true) :
    execFrom pricePattern (pre ++ '$' :: tail) =
      some ⟨priceRest tail, some (priceLiteral tail)⟩ := by
  induction pre with
  | nil =>
    simp only [List.nil_append, execFrom]
    rw [pricePattern_run tail htail]
  | cons p ps ih =>
    simp only [containsPrice, Bool.or_eq_false_iff] at hpre
    have hno := startsPrice_append_dollar p ps tail hpre.1
    rw [List.cons_append] at hno
    rw [List.cons_append, execFrom_cons, pricePattern_run_none _ _ _ hno]
    exact ih hpre.2

theorem takeWhile_digits_append (ds r : List Char) (hds : ∀ c ∈ ds, c.isDigit = true)
    (hr : ∀ c, r.head? = some c → c.isDigit = false) :
    (ds ++ r).takeWhile Char.isDigit = ds ∧ (ds ++ r).dropWhile Char.isDigit = r := by
  induction ds with
  | nil =>
    cases r with
    | nil => simp
    | cons x xs =>
      have hx : x.isDigit = false := hr x (by simp)
      simp [List.takeWhile_cons, List.dropWhile_cons, hx]
  | cons d ds ih =>
    have hd : d.isDigit = true := hds d (by simp)
    have := ih (fun c hc => hds c (by simp [hc]))
    simp [List.takeWhile_cons, List.dropWhile_cons, hd, this]

/-- The function `Number` on a captured literal gives the rounded decimal value. -/
theorem Number_priceLiteral (tail : List Char) :
    Number (priceLiteral tail) = priceAfterDollar tail := by
  have hds := takeWhile_all_isDigit tail
  unfold priceLiteral priceAfterDollar decimalNumber
  by_cases hfs : fractionDigits (tail.dropWhile Char.isDigit) = []
  · simp only [hfs, if_true]
    have h := takeWhile_digits_append (tail.takeWhile Char.isDigit) [] hds (by simp)
    simp only [List.append_nil] at h
    simp [Number, h.1, h.2]
  · simp only [hfs, if_false]
    have hfd : ∀ c ∈ fractionDigits (tail.dropWhile Char.isDigit), c.isDigit = true := by
      intro c hc
      unfold fractionDigits at hc
      split at hc
      · split at hc
        · exact List.mem_takeWhile_imp hc
        · simp at hc
      · simp at hc
    have h := takeWhile_digits_append (tail.takeWhile Char.isDigit)
      ('.' :: fractionDigits (tail.dropWhile Char.isDigit)) hds
      (by intro c hc; simp at hc; subst hc; decide)
    simp only [Number, h.1, h.2]
    have hall : (fractionDigits (tail.dropWhile Char.isDigit)).all Char.isDigit = true := by
      simpa [List.all_eq_true] using hfd
    simp [hfs, hall]

theorem parsePrice_of_split (pre tail : List Char) (hpre : containsPrice pre = false)
    (htail : startsPrice ('$' :: tail) = true) :
    parsePriceFromString (some (String.mk (pre ++ '$' :: tail))) = priceAfterDollar tail := by
  have hne : (String.mk (pre ++ '$' :: tail)) ≠ "" := by
    intro h
    have := congrArg String.data h
    simp at this
  simp only [parsePriceFromString, hne, if_false, execFrom_first pre tail hpre htail]
  exact Number_priceLiteral tail

theorem parsePrice_of_no_price (s : String) (h : containsPrice s.data = false) :
    parsePriceFromString (some s) = JSNum.ofNat 15 := by
  simp only [parsePriceFromString, execFrom_none s.data h]
  split <;> rfl

/-! ## Number facts used by the booking total -/

theorem log2Fuel_pow_le (fuel : Nat) : ∀ n, 1 ≤ n → 2 ^ log2Fuel fuel n ≤ n := by
  induction fuel with
  | zero => intro n hn; simpa [log2Fuel] using hn
  | succ f ih =>
    intro n hn
    unfold log2Fuel
    by_cases h2 : n < 2
    · simpa [h2] using hn
    · simp only [h2, if_false]
      have hhalf : 1 ≤ n / 2 := by omega
      have := ih (n / 2) hhalf
      rw [pow_succ]
      omega

theorem ilog2_pow_le (n : Nat) (hn : 1 ≤ n) : 2 ^ ilog2 n ≤ n :=
  log2Fuel_pow_le n n hn

theorem scaleNum_eq (n : Nat) (e : Int) : scaleNum n e = n * 2 ^ (-e).toNat := by
  unfold scaleNum
  by_cases h : e < 0
  · have : (-e).toNat = e.natAbs := by omega
    simp [h, this]
  · have : (-e).toNat = 0 := by omega
    simp [h, this]

theorem scaleDen_eq (d : Nat) (e : Int) : scaleDen d e = d * 2 ^ e.toNat := by
  unfold scaleDen
  by_cases h : e < 0
  · have : e.toNat = 0 := by omega
    simp [h, this]
  · simp [h]

theorem log2Fuel_lt_pow (fuel : Nat) : ∀ n, n ≤ fuel → n < 2 ^ (log2Fuel fuel n + 1) := by
  induction fuel with
  | zero => intro n hn; simp [log2Fuel]; omega
  | succ f ih =>
    intro n hn
    unfold log2Fuel
    by_cases h2 : n < 2
    · simp [h2]
    · simp only [h2, if_false]
      have := ih (n / 2) (by omega)
      rw [pow_succ]
      omega

theorem ilog2_lt_pow (n : Nat) : n < 2 ^ (ilog2 n + 1) :=
  log2Fuel_lt_pow n n (le_refl n)

theorem binExponent_eq (n d : Nat) : binExponent n d = max (rawExponent n d) (-1074) := rfl

theorem pow_toNat_succ (e : Int) (h : 0 ≤ e) : 2 ^ (e + 1).toNat = 2 * 2 ^ e.toNat := by
  have : (e + 1).toNat = e.toNat + 1 := by omega
  rw [this, pow_succ]; ring

/-- The raw exponent brings the significand into `[2^52, 2^53)`. -/
theorem rawExponent_spec (n d : Nat) (hn : 1 ≤ n) (hd : 1 ≤ d) :
    2 ^ 52 * scaleDen d (rawExponent n d) ≤ scaleNum n (rawExponent n d) ∧
    scaleNum n (rawExponent n d) < 2 ^ 53 * scaleDen d (rawExponent n d) := by
  have ha1 := ilog2_pow_le n hn
  have ha2 := ilog2_lt_pow n
  have hb1 := ilog2_pow_le d hd
  have hb2 := ilog2_lt_pow d
  unfold rawExponent
  simp only
  generalize he0 : (ilog2 n : Int) - (ilog2 d : Int) - 52 = e0
  generalize ilog2 n = a at *
  generalize ilog2 d = b at *
  -- bounds at `e0`
  have hup : scaleNum n e0 < 2 ^ 53 * scaleDen d e0 := by
    rw [scaleNum_eq, scaleDen_eq]
    have hexp : a + 1 + (-e0).toNat = 53 + b + e0.toNat := by omega
    calc n * 2 ^ (-e0).toNat < 2 ^ (a + 1) * 2 ^ (-e0).toNat :=
          Nat.mul_lt_mul_of_pos_right ha2 (pow_pos (by decide) _)
      _ = 2 ^ (53 + b + e0.toNat) := by rw [← pow_add, hexp]
      _ = 2 ^ 53 * (2 ^ b * 2 ^ e0.toNat) := by rw [pow_add, pow_add]; ring
      _ ≤ 2 ^ 53 * (d * 2 ^ e0.toNat) :=
          Nat.mul_le_mul_left _ (Nat.mul_le_mul_right _ hb1)
  have hlow : 2 ^ 51 * scaleDen d e0 < scaleNum n e0 := by
    rw [scaleNum_eq, scaleDen_eq]
    have hexp : 51 + (b + 1) + e0.toNat = a + (-e0).toNat := by omega
    calc 2 ^ 51 * (d * 2 ^ e0.toNat) < 2 ^ 51 * (2 ^ (b + 1) * 2 ^ e0.toNat) :=
          Nat.mul_lt_mul_of_pos_left
            (Nat.mul_lt_mul_of_pos_right hb2 (pow_pos (by decide) _)) (pow_pos (by decide) _)
      _ = 2 ^ (51 + (b + 1) + e0.toNat) := by rw [pow_add, pow_add]; ring
      _ = 2 ^ a * 2 ^ (-e0).toNat := by rw [hexp, pow_add]
      _ ≤ n * 2 ^ (-e0).toNat := Nat.mul_le_mul_right _ ha1
  by_cases hlt : scaleNum n e0 < 2 ^ 52 * scaleDen d e0
  · simp only [hlt, if_true]
    rw [scaleNum_eq, scaleDen_eq] at hlt hlow ⊢
    by_cases hpos : 1 ≤ e0
    · have h1 : 2 ^ e0.toNat = 2 * 2 ^ (e0 - 1).toNat := by
        have := pow_toNat_succ (e0 - 1) (by omega)
        simpa using this
      have h2 : (-(e0 - 1)).toNat = 0 := by omega
      have h3 : (-e0).toNat = 0 := by omega
      rw [h1, h3] at hlt hlow
      rw [h2]
      constructor <;> linarith
    · have h1 : (e0 - 1).toNat = 0 := by omega
      have h2 : e0.toNat = 0 := by omega
      have h3 : 2 ^ (-(e0 - 1)).toNat = 2 * 2 ^ (-e0).toNat := by
        have := pow_toNat_succ (-e0) (by omega)
        have h4 : -e0 + 1 = -(e0 - 1) := by ring
        rwa [h4] at this
      rw [h2] at hlt hlow
      rw [h1, h3]
      constructor <;> linarith
  · simp only [hlt, if_false]
    exact ⟨by omega, hup⟩

theorem roundHalfEven_mul (k d : Nat) (hd : 1 ≤ d) : roundHalfEven (k * d) d = k := by
  unfold roundHalfEven
  have h1 : k * d / d = k := Nat.mul_div_cancel k (by omega)
  have h2 : k * d % d = 0 := Nat.mul_mod_left k d
  simp only [h1, h2]
  have : 2 * 0 < d := by omega
  rw [if_pos this]

/-! ## Integers below `2^53` as Numbers -/

theorem toF64_exactInt (neg : Bool) (N d : Nat) (hN : 1 ≤ N) (hN2 : N < 2 ^ 53) (hd : 1 ≤ d) :
    ExactInt (toF64 neg (N * d) d) neg N := by
  have hnd : 1 ≤ N * d := Nat.mul_pos hN hd
  obtain ⟨hlo, hhi⟩ := rawExponent_spec (N * d) d hnd hd
  rw [scaleNum_eq, scaleDen_eq] at hlo hhi
  generalize hE : rawExponent (N * d) d = e at hlo hhi
  have hdpos : 0 < d := hd
  have he0 : e ≤ 0 := by
    by_contra hcon
    have hQ : (-e).toNat = 0 := by omega
    have hP : 2 ^ e.toNat = 2 * 2 ^ (e - 1).toNat := by
      have := pow_toNat_succ (e - 1) (by omega)
      simpa using this
    rw [hQ, hP] at hlo
    have hp1 : 1 ≤ 2 ^ (e - 1).toNat := Nat.one_le_two_pow
    have h53 : (2 : Nat) ^ 53 = 2 ^ 52 * 2 := by norm_num
    have hx : 2 ^ 53 * d ≤ N * d := by
      calc 2 ^ 53 * d = 2 ^ 52 * (d * (2 * 1)) := by rw [h53]; ring
        _ ≤ 2 ^ 52 * (d * (2 * 2 ^ (e - 1).toNat)) :=
            Nat.mul_le_mul_left _ (Nat.mul_le_mul_left _ (Nat.mul_le_mul_left _ hp1))
        _ ≤ N * d := by simpa using hlo
    have hy : N * d < 2 ^ 53 * d := Nat.mul_lt_mul_of_pos_right hN2 hdpos
    omega
  have hP0 : e.toNat = 0 := by omega
  rw [hP0] at hlo hhi
  simp only [pow_zero, Nat.mul_one] at hlo hhi
  have hm : N * 2 ^ (-e).toNat < 2 ^ 53 := by
    have : N * 2 ^ (-e).toNat * d < 2 ^ 53 * d := by
      calc N * 2 ^ (-e).toNat * d = N * d * 2 ^ (-e).toNat := by ring
        _ < 2 ^ 53 * d := hhi
    exact Nat.lt_of_mul_lt_mul_right this
  have hm2 : 2 ^ 52 ≤ N * 2 ^ (-e).toNat := by
    have : 2 ^ 52 * d ≤ N * 2 ^ (-e).toNat * d := by
      calc 2 ^ 52 * d ≤ N * d * 2 ^ (-e).toNat := hlo
        _ = N * 2 ^ (-e).toNat * d := by ring
    exact Nat.le_of_mul_le_mul_right this hdpos
  have hQ53 : (-e).toNat < 53 := by
    by_contra hcon
    have : 2 ^ 53 ≤ 2 ^ (-e).toNat := Nat.pow_le_pow_right (by decide) (by omega)
    have : 2 ^ (-e).toNat ≤ N * 2 ^ (-e).toNat := Nat.le_mul_of_pos_left _ hN
    omega
  refine ⟨(-e).toNat, ?_, hm2, hm⟩
  have hbe : binExponent (N * d) d = e := by
    rw [binExponent_eq, hE]
    omega
  have hn0 : N * d ≠ 0 := by omega
  have hround : roundHalfEven (scaleNum (N * d) e) (scaleDen d e) = N * 2 ^ (-e).toNat := by
    rw [scaleNum_eq, scaleDen_eq, hP0]
    simp only [pow_zero, Nat.mul_one]
    have : N * d * 2 ^ (-e).toNat = N * 2 ^ (-e).toNat * d := by ring
    rw [this]
    exact roundHalfEven_mul _ d hd
  unfold toF64
  simp only [hn0, if_false, hbe, hround]
  have hne : N * 2 ^ (-e).toNat ≠ 2 ^ 53 := by omega
  have h971 : ¬ (971 < e) := by omega
  have hcast : ((-e).toNat : Int) = -e := by omega
  simp only [hne, h971, if_false, hcast, neg_neg]

theorem toF64_zero (neg : Bool) (d : Nat) : toF64 neg 0 d = .fin neg 0 (-1074) := by
  simp [toF64]

theorem toDigitsCore_acc (f : Nat) : ∀ (n : Nat) (ds : List Char),
    Nat.toDigitsCore 10 f n ds = Nat.toDigitsCore 10 f n [] ++ ds := by
  induction f with
  | zero => intro n ds; simp [Nat.toDigitsCore]
  | succ f ih =>
    intro n ds
    simp only [Nat.toDigitsCore]
    by_cases h : n / 10 = 0
    · simp [h]
    · simp only [h, if_false]
      rw [ih (n / 10) (Nat.digitChar (n % 10) :: ds), ih (n / 10) [Nat.digitChar (n % 10)]]
      simp

theorem toDigitsCore_fuel (f1 : Nat) : ∀ (f2 n : Nat) (ds : List Char), n < f1 → n < f2 →
    Nat.toDigitsCore 10 f1 n ds = Nat.toDigitsCore 10 f2 n ds := by
  induction f1 with
  | zero => intro f2 n ds h; omega
  | succ f1 ih =>
    intro f2 n ds h1 h2
    cases f2 with
    | zero => omega
    | succ f2 =>
      simp only [Nat.toDigitsCore]
      by_cases h : n / 10 = 0
      · simp [h]
      · simp only [h, if_false]
        exact ih f2 (n / 10) _ (by omega) (by omega)

/-- One step of the decimal expansion. -/
theorem toDigits_step (n : Nat) (h : n / 10 ≠ 0) :
    Nat.toDigits 10 n = Nat.toDigits 10 (n / 10) ++ [Nat.digitChar (n % 10)] := by
  unfold Nat.toDigits
  rw [Nat.toDigitsCore]
  simp only [h, if_false]
  rw [toDigitsCore_acc, toDigitsCore_fuel n (n / 10 + 1) (n / 10) [] (by omega) (by omega)]

theorem toDigits_small (n : Nat) (h : n / 10 = 0) :
    Nat.toDigits 10 n = [Nat.digitChar (n % 10)] := by
  unfold Nat.toDigits
  rw [Nat.toDigitsCore]
  simp [h]

theorem toDigits_mul_ten (s : Nat) (hs : 1 ≤ s) :
    Nat.toDigits 10 (s * 10) = Nat.toDigits 10 s ++ ['0'] := by
  have h1 : s * 10 / 10 = s := Nat.mul_div_cancel s (by decide)
  have h2 : s * 10 % 10 = 0 := Nat.mul_mod_left s 10
  rw [toDigits_step (s * 10) (by omega), h1, h2]
  rfl

theorem toDigits_mul_pow (s : Nat) (hs : 1 ≤ s) (z : Nat) :
    Nat.toDigits 10 (s * 10 ^ z) = Nat.toDigits 10 s ++ zeros z := by
  induction z with
  | zero => simp [zeros]
  | succ z ih =>
    have hpos : 1 ≤ s * 10 ^ z := Nat.mul_pos hs (pow_pos (by decide) _)
    rw [pow_succ, ← Nat.mul_assoc, toDigits_mul_ten _ hpos, ih]
    simp [zeros, List.replicate_succ']

theorem toDigits_length (k : Nat) : ∀ s, 10 ^ k ≤ s → s < 10 ^ (k + 1) →
    (Nat.toDigits 10 s).length = k + 1 := by
  induction k with
  | zero =>
    intro s h1 h2
    rw [toDigits_small s (by omega)]
    rfl
  | succ k ih =>
    intro s h1 h2
    rw [pow_succ] at h1 h2
    have hq : s / 10 ≠ 0 := by
      have : 1 ≤ 10 ^ k := Nat.one_le_pow _ _ (by decide)
      omega
    rw [toDigits_step s hq, List.length_append, ih (s / 10) (by omega) (by omega)]
    rfl

theorem exactInt_unique (x y : JSNum) (neg : Bool) (N : Nat) (hx : ExactInt x neg N)
    (hy : ExactInt y neg N) : x = y := by
  obtain ⟨Q, h1, h2, h3⟩ := hx
  obtain ⟨R, k1, k2, k3⟩ := hy
  have hN : 1 ≤ N := by
    rcases Nat.eq_zero_or_pos N with h | h
    · subst h; simp at h2
    · exact h
  have hQR : Q = R := by
    rcases Nat.lt_trichotomy Q R with h | h | h
    · exfalso
      have : 2 ^ (Q + 1) ≤ 2 ^ R := Nat.pow_le_pow_right (by decide) h
      have h4 : N * 2 ^ (Q + 1) ≤ N * 2 ^ R := Nat.mul_le_mul_left _ this
      rw [pow_succ] at h4
      have : N * (2 ^ Q * 2) = 2 * (N * 2 ^ Q) := by ring
      omega
    · exact h
    · exfalso
      have : 2 ^ (R + 1) ≤ 2 ^ Q := Nat.pow_le_pow_right (by decide) h
      have h4 : N * 2 ^ (R + 1) ≤ N * 2 ^ Q := Nat.mul_le_mul_left _ this
      rw [pow_succ] at h4
      have : N * (2 ^ R * 2) = 2 * (N * 2 ^ R) := by ring
      omega
  subst hQR
  rw [h1, k1]

theorem exactInt_inj (x : JSNum) (neg neg2 : Bool) (N M : Nat) (hx : ExactInt x neg N)
    (hy : ExactInt x neg2 M) : N = M := by
  obtain ⟨Q, h1, _, _⟩ := hx
  obtain ⟨R, k1, _, _⟩ := hy
  rw [h1] at k1
  simp only [JSNum.fin.injEq, neg_inj, Nat.cast_inj] at k1
  obtain ⟨_, k2, k3⟩ := k1
  subst k3
  exact Nat.eq_of_mul_eq_mul_right (pow_pos (by decide) Q) k2

/-- An integer from `2^53` on converts to a Number with a positive exponent, or to
infinity. -/
theorem toF64_big (neg neg2 : Bool) (c M : Nat) (hc : 2 ^ 53 ≤ c) :
    ¬ ExactInt (toF64 neg c 1) neg2 M := by
  rintro ⟨Q, h1, _, _⟩
  have hc1 : 1 ≤ c := by
    have : (0 : Nat) < 2 ^ 53 := by decide
    omega
  obtain ⟨_, hhi⟩ := rawExponent_spec c 1 hc1 (le_refl 1)
  rw [scaleNum_eq, scaleDen_eq] at hhi
  generalize hE : rawExponent c 1 = e at hhi
  have he : 1 ≤ e := by
    by_contra hcon
    have hP0 : e.toNat = 0 := by omega
    rw [hP0] at hhi
    simp only [pow_zero, Nat.mul_one] at hhi
    have : c ≤ c * 2 ^ (-e).toNat := Nat.le_mul_of_pos_right _ (pow_pos (by decide) _)
    omega
  have hbe : binExponent c 1 = e := by
    rw [binExponent_eq, hE]
    omega
  unfold toF64 at h1
  have hc0 : c ≠ 0 := by omega
  simp only [hc0, if_false, hbe] at h1
  split_ifs at h1 with h2 h3 h4
  · simp only [JSNum.fin.injEq] at h1
    omega
  · simp only [JSNum.fin.injEq] at h1
    omega

theorem toF64_eq_exactInt_iff (x : JSNum) (N c : Nat) (hx : ExactInt x false N)
    (hN : N < 2 ^ 53) (hc : 1 ≤ c) : toF64 false c 1 = x ↔ c = N := by
  have hN1 : 1 ≤ N := by
    obtain ⟨Q, _, h2, _⟩ := hx
    rcases Nat.eq_zero_or_pos N with h | h
    · subst h; simp at h2
    · exact h
  constructor
  · intro h
    rcases Nat.lt_or_ge c (2 ^ 53) with hlt | hge
    · have := toF64_exactInt false c 1 hc hlt (le_refl 1)
      rw [Nat.mul_one, h] at this
      exact exactInt_inj x false false c N this hx
    · exact absurd (h ▸ hx) (toF64_big false false c N hge)
  · intro h
    subst h
    have := toF64_exactInt false c 1 hN1 hN (le_refl 1)
    rw [Nat.mul_one] at this
    exact exactInt_unique _ _ false c this hx

/-! ## The shortest decimal of an integer below `2^53` -/

theorem scaleNum10_natCast (n T : Nat) : scaleNum10 n (T : Int) = n := by
  unfold scaleNum10
  have : ¬ ((T : Int) < 0) := by omega
  simp [this]

theorem scaleDen10_natCast (d T : Nat) : scaleDen10 d (T : Int) = d * 10 ^ T := by
  unfold scaleDen10
  have : ¬ ((T : Int) < 0) := by omega
  simp [this]

theorem scaleNum10_neg (n T : Nat) : scaleNum10 n (-(T : Int)) = n * 10 ^ T := by
  unfold scaleNum10
  by_cases h : T = 0
  · subst h; simp
  · have : (-(T : Int)) < 0 := by omega
    simp [this]

theorem scaleDen10_neg (T : Nat) : scaleDen10 1 (-(T : Int)) = 1 := by
  unfold scaleDen10
  by_cases h : T = 0
  · subst h; simp
  · have : (-(T : Int)) < 0 := by omega
    simp [this]

/-- With `k` digits, the candidate below is the integer itself exactly when the integer
is a multiple of `10^(p-k)`, and the candidate above never reads back as the integer. -/
theorem shortestAt_exact (x : JSNum) (N d p k : Nat) (hx : ExactInt x false N)
    (hN : N < 2 ^ 53) (hd : 1 ≤ d) (hk1 : 1 ≤ k) (hkp : k ≤ p) (hlo : 10 ^ (p - 1) ≤ N)
    (hhi : N < 10 ^ p) :
    shortestAt x (N * d) d (p : Int) k =
      if 10 ^ (p - k) ∣ N then some (N / 10 ^ (p - k), (p : Int)) else none := by
  have ht : (p : Int) - (k : Int) = ((p - k : Nat) : Int) := by omega
  have hTpos : 0 < 10 ^ (p - k) := pow_pos (by decide) _
  have hj : N * d / (d * 10 ^ (p - k)) = N / 10 ^ (p - k) := by
    rw [Nat.mul_comm N d]
    exact Nat.mul_div_mul_left N (10 ^ (p - k)) hd
  have hpow : 10 ^ (p - k) * 10 ^ k = 10 ^ p := by
    rw [← pow_add]
    congr 1
    omega
  have hjlt : N / 10 ^ (p - k) < 10 ^ k := by
    apply Nat.div_lt_of_lt_mul
    rw [hpow]
    exact hhi
  have hle : 10 ^ (p - k) ≤ N := by
    have : 10 ^ (p - k) ≤ 10 ^ (p - 1) := Nat.pow_le_pow_right (by decide) (by omega)
    omega
  have hj1 : 1 ≤ N / 10 ^ (p - k) := (Nat.one_le_div_iff hTpos).mpr hle
  have hdm := Nat.div_add_mod N (10 ^ (p - k))
  have hmod := Nat.mod_lt N hTpos
  have hlow : toF64 false (N / 10 ^ (p - k) * 10 ^ (p - k)) 1 = x ↔ 10 ^ (p - k) ∣ N := by
    rw [toF64_eq_exactInt_iff x N _ hx hN (Nat.mul_pos hj1 hTpos)]
    constructor
    · intro h
      exact ⟨N / 10 ^ (p - k), by rw [Nat.mul_comm]; exact h.symm⟩
    · intro h
      exact Nat.div_mul_cancel h
  have hhigh : ¬ toF64 false ((N / 10 ^ (p - k) + 1) * 10 ^ (p - k)) 1 = x := by
    rw [toF64_eq_exactInt_iff x N _ hx hN (Nat.mul_pos (by omega) hTpos)]
    have : (N / 10 ^ (p - k) + 1) * 10 ^ (p - k) =
        10 ^ (p - k) * (N / 10 ^ (p - k)) + 10 ^ (p - k) := by ring
    omega
  unfold shortestAt
  simp only [ht, scaleNum10_natCast, scaleDen10_natCast, scaleNum10_neg, scaleDen10_neg, hj,
    hhigh, decide_False, Bool.and_false, Bool.false_eq_true, if_false]
  by_cases hdiv : 10 ^ (p - k) ∣ N
  · have h1 := hlow.mpr hdiv
    have hne : N / 10 ^ (p - k) ≠ 10 ^ k := by omega
    simp [h1, hdiv, hne]
  · have h1 : ¬ toF64 false (N / 10 ^ (p - k) * 10 ^ (p - k)) 1 = x := fun h => hdiv (hlow.mp h)
    simp [h1, hdiv]

/-- The search stops at the first digit count at which the integer is a multiple of the
remaining power of ten, and it gets there within the fuel. -/
theorem shortestFrom_exact (x : JSNum) (N d p : Nat) (hx : ExactInt x false N)
    (hN : N < 2 ^ 53) (hd : 1 ≤ d) (hlo : 10 ^ (p - 1) ≤ N) (hhi : N < 10 ^ p) :
    ∀ (fuel k : Nat), 1 ≤ k → k ≤ p → p - k < fuel →
      ∃ s k2, shortestFrom x (N * d) d (p : Int) fuel k = some (s, (p : Int)) ∧
        1 ≤ k2 ∧ k2 ≤ p ∧ s * 10 ^ (p - k2) = N ∧ 1 ≤ s := by
  intro fuel
  induction fuel with
  | zero => intro k _ _ h; omega
  | succ f ih =>
    intro k hk1 hkp hfuel
    rw [shortestFrom, shortestAt_exact x N d p k hx hN hd hk1 hkp hlo hhi]
    by_cases hdiv : 10 ^ (p - k) ∣ N
    · simp only [hdiv, if_true]
      refine ⟨N / 10 ^ (p - k), k, rfl, hk1, hkp, Nat.div_mul_cancel hdiv, ?_⟩
      have hTpos : 0 < 10 ^ (p - k) := pow_pos (by decide) _
      have hle : 10 ^ (p - k) ≤ N := by
        have : 10 ^ (p - k) ≤ 10 ^ (p - 1) := Nat.pow_le_pow_right (by decide) (by omega)
        omega
      exact (Nat.one_le_div_iff hTpos).mpr hle
    · simp only [hdiv, if_false]
      have hkp2 : k < p := by
        rcases Nat.lt_or_ge k p with h | h
        · exact h
        · exfalso
          apply hdiv
          have : p - k = 0 := by omega
          rw [this]
          simp
      exact ih (k + 1) (by omega) (by omega) (by omega)

theorem decExpUp_spec (n d : Nat) :
    ∀ (fuel p : Nat), 1 ≤ p → d * 10 ^ (p - 1) ≤ n →
      (∃ P, P < p + fuel ∧ n < d * 10 ^ P) →
      d * 10 ^ (decExpUp n d fuel p - 1) ≤ n ∧ n < d * 10 ^ decExpUp n d fuel p ∧
        1 ≤ decExpUp n d fuel p := by
  intro fuel
  induction fuel with
  | zero =>
    intro p hp h1 h2
    obtain ⟨P, hP, hn⟩ := h2
    have hpow : d * 10 ^ P ≤ d * 10 ^ (p - 1) :=
      Nat.mul_le_mul_left _ (Nat.pow_le_pow_right (by decide) (by omega))
    omega
  | succ f ih =>
    intro p hp h1 h2
    rw [decExpUp]
    by_cases h : n < d * 10 ^ p
    · rw [if_pos h]
      exact ⟨h1, h, hp⟩
    · rw [if_neg h]
      apply ih (p + 1) (by omega)
      · simpa using Nat.le_of_not_lt h
      · obtain ⟨P, hP, hn⟩ := h2
        exact ⟨P, by omega, hn⟩

/-- The decimal exponent of an integer below `2^53` is its number of decimal digits. -/
theorem decExponent_exact (N d : Nat) (hN1 : 1 ≤ N) (hN : N < 2 ^ 53) (hd : 1 ≤ d) :
    ∃ p : Nat, decExponent (N * d) d = (p : Int) ∧ 1 ≤ p ∧ p ≤ 16 ∧ 10 ^ (p - 1) ≤ N ∧
      N < 10 ^ p := by
  have hle : d ≤ N * d := Nat.le_mul_of_pos_left d hN1
  have h253 : (2 : Nat) ^ 53 < 10 ^ 16 := by decide
  have h16 : N * d < d * 10 ^ 16 := by
    rw [Nat.mul_comm d]
    exact Nat.mul_lt_mul_of_pos_right (by omega) hd
  have hspec := decExpUp_spec (N * d) d 400 1 (le_refl 1) (by simpa using hle)
    ⟨16, by decide, h16⟩
  obtain ⟨h1, h2, h3⟩ := hspec
  refine ⟨decExpUp (N * d) d 400 1, ?_, h3, ?_, ?_, ?_⟩
  · simp [decExponent, hle]
  · by_contra hcon
    have : 10 ^ 16 ≤ 10 ^ (decExpUp (N * d) d 400 1 - 1) :=
      Nat.pow_le_pow_right (by decide) (by omega)
    have h4 : d * 10 ^ 16 ≤ d * 10 ^ (decExpUp (N * d) d 400 1 - 1) :=
      Nat.mul_le_mul_left _ this
    omega
  · have : d * 10 ^ (decExpUp (N * d) d 400 1 - 1) ≤ d * N := by
      rw [Nat.mul_comm d N]; exact h1
    exact Nat.le_of_mul_le_mul_left this hd
  · have : d * N < d * 10 ^ decExpUp (N * d) d 400 1 := by
      rw [Nat.mul_comm d N]; exact h2
    exact Nat.lt_of_mul_lt_mul_left this

theorem layoutDecimal_integer (s k z : Nat) (hs : 1 ≤ s) (hk : 1 ≤ k)
    (hlo : 10 ^ (k - 1) ≤ s) (hhi : s < 10 ^ k) (hz : k + z ≤ 21) :
    layoutDecimal (Nat.toDigits 10 s) ((k + z : Nat) : Int) = Nat.toDigits 10 (s * 10 ^ z) := by
  have hlen : (Nat.toDigits 10 s).length = k := by
    have := toDigits_length (k - 1) s hlo (by
      have : k - 1 + 1 = k := by omega
      rw [this]; exact hhi)
    omega
  unfold layoutDecimal
  simp only [hlen]
  have h1 : ((k : Int) ≤ ((k + z : Nat) : Int) ∧ ((k + z : Nat) : Int) ≤ 21) := by
    constructor <;> omega
  rw [if_pos h1, toDigits_mul_pow s hs z]
  congr 2
  omega

/-- Number::toString of an integer below `2^53` is its decimal numeral, with a leading
`-` for a negative one. -/
theorem toJSString_exactInt (x : JSNum) (neg : Bool) (N : Nat) (hx : ExactInt x neg N)
    (hN : N < 2 ^ 53) :
    x.toJSString = String.mk ((if neg then ['-'] else []) ++ Nat.toDigits 10 N) := by
  obtain ⟨Q, rfl, h2, h3⟩ := hx
  have hN1 : 1 ≤ N := by
    rcases Nat.eq_zero_or_pos N with h | h
    · subst h; simp at h2
    · exact h
  have hm : N * 2 ^ Q ≠ 0 := by omega
  have hx2 : ExactInt (.fin false (N * 2 ^ Q) (-(Q : Int))) false N := ⟨Q, rfl, h2, h3⟩
  have hd : 1 ≤ 2 ^ Q := Nat.one_le_two_pow
  obtain ⟨p, hp, hp1, hp16, hlo, hhi⟩ := decExponent_exact N (2 ^ Q) hN1 hN hd
  obtain ⟨s, k2, hfrom, hk1, hk2, hsN, hs1⟩ :=
    shortestFrom_exact _ N (2 ^ Q) p hx2 hN hd hlo hhi 17 1 (le_refl 1) hp1 (by omega)
  have hn : scaleNum (N * 2 ^ Q) (- -(Q : Int)) = N * 2 ^ Q := by
    rw [scaleNum_eq]
    have : (- - -(Q : Int)).toNat = 0 := by omega
    rw [this]; simp
  have hden : scaleDen 1 (- -(Q : Int)) = 2 ^ Q := by
    rw [scaleDen_eq]
    have : (- -(Q : Int)).toNat = Q := by omega
    rw [this]; simp
  have hTpos : 0 < 10 ^ (p - k2) := pow_pos (by decide) _
  have hpow : 10 ^ k2 * 10 ^ (p - k2) = 10 ^ p := by
    rw [← pow_add]; congr 1; omega
  have hpow2 : 10 ^ (k2 - 1) * 10 ^ (p - k2) = 10 ^ (p - 1) := by
    rw [← pow_add]; congr 1; omega
  have hs_hi : s < 10 ^ k2 := by
    have : s * 10 ^ (p - k2) < 10 ^ k2 * 10 ^ (p - k2) := by rw [hsN, hpow]; exact hhi
    exact Nat.lt_of_mul_lt_mul_right this
  have hs_lo : 10 ^ (k2 - 1) ≤ s := by
    have : 10 ^ (k2 - 1) * 10 ^ (p - k2) ≤ s * 10 ^ (p - k2) := by rw [hsN, hpow2]; exact hlo
    exact Nat.le_of_mul_le_mul_right this hTpos
  have hlay := layoutDecimal_integer s k2 (p - k2) hs1 hk1 hs_lo hs_hi (by omega)
  have hkz : k2 + (p - k2) = p := by omega
  rw [hkz, hsN] at hlay
  unfold JSNum.toJSString
  simp only [hm, if_false, hn, hden, hp, hfrom, hlay]
  cases neg <;> simp

theorem mapGet_mapSet (m : List (String × Nat)) (k key : String) (v : Nat) :
    mapGet (mapSet m k v) key = if k = key then some v else mapGet m key := by
  induction m with
  | nil => simp [mapSet, mapGet]
  | cons kv rest ih =>
    obtain ⟨k0, v0⟩ := kv
    by_cases h0 : k0 = k
    · subst h0
      by_cases h1 : k0 = key
      · simp [mapSet, mapGet, h1]
      · simp [mapSet, mapGet, h1]
    · by_cases h1 : k0 = key
      · have h2 : ¬ k = key := fun h => h0 (h1.trans h.symm)
        have h3 : ¬ key = k := fun h => h2 h.symm
        subst h1
        simp [mapSet, mapGet, h3, h2]
      · simp [mapSet, mapGet, h0, h1, ih]

theorem mapGet_foldl_enumFrom (key : String) (ls : List NavLink) :
    ∀ (m : List (String × Nat)) (n : Nat),
      mapGet ((ls.enumFrom n).foldl
        (fun m (il : Nat × NavLink) => mapSet m (fragment il.2) il.1) m) key =
      (match lastLinkIndex key ls with
        | some j => some (n + j)
        | none => mapGet m key) := by
  induction ls with
  | nil => intro m n; simp [lastLinkIndex]
  | cons l ls ih =>
    intro m n
    simp only [List.enumFrom, List.foldl_cons, lastLinkIndex]
    rw [ih]
    cases hl : lastLinkIndex key ls with
    | some j => simp; omega
    | none =>
      simp only [mapGet_mapSet]
      by_cases hf : fragment l = key
      · simp [hf]
      · simp [hf]

theorem mapGet_buildLinkMap (key : String) (navLinks : List NavLink) :
    mapGet (buildLinkMap navLinks) key = lastLinkIndex key navLinks := by
  unfold buildLinkMap List.enum
  rw [mapGet_foldl_enumFrom]
  cases lastLinkIndex key navLinks with
  | some j => simp
  | none => simp [mapGet]

theorem lastLinkIndex_some (key : String) :
    ∀ (ls : List NavLink) (i : Nat), lastLinkIndex key ls = some i →
      ∃ l, ls[i]? = some l ∧ fragment l = key := by
  intro ls
  induction ls with
  | nil => intro i h; simp [lastLinkIndex] at h
  | cons l ls ih =>
    intro i h
    simp only [lastLinkIndex] at h
    cases hl : lastLinkIndex key ls with
    | some j =>
      rw [hl] at h
      simp at h
      subst h
      obtain ⟨l', h1, h2⟩ := ih j hl
      exact ⟨l', by simpa using h1, h2⟩
    | none =>
      rw [hl] at h
      by_cases hf : fragment l = key
      · simp [hf] at h
        subst h
        exact ⟨l, by simp, hf⟩
      · simp [hf] at h

theorem lastLinkIndex_none (key : String) :
    ∀ (ls : List NavLink), lastLinkIndex key ls = none ↔ ¬ ∃ l ∈ ls, fragment l = key := by
  intro ls
  induction ls with
  | nil => simp [lastLinkIndex]
  | cons l ls ih =>
    simp only [lastLinkIndex]
    cases hl : lastLinkIndex key ls with
    | some j =>
      have := (not_congr ih).mp (by simp [hl])
      simp only [not_not] at this
      obtain ⟨l', h1, h2⟩ := this
      simp only [reduceCtorEq, false_iff, not_not]
      exact ⟨l', by simp [h1], h2⟩
    | none =>
      have hno := ih.mp hl
      by_cases hf : fragment l = key
      · simp [hf]
      · simp only [hf, if_false, true_iff]
        rintro ⟨l', h1, h2⟩
        simp at h1
        rcases h1 with h1 | h1
        · subst h1; exact hf h2
        · exact hno ⟨l', h1, h2⟩

theorem activate_getElem? (ls : List NavLink) :
    ∀ (i j : Nat) (l : NavLink), (∀ x ∈ ls, x.active = false) → i < ls.length →
      (activate ls i)[j]? = some l → (l.active = true ↔ j = i) := by
  induction ls with
  | nil => intro i j l _ hi; simp at hi
  | cons x xs ih =>
    intro i j l hall hi hj
    have hx : x.active = false := hall x (by simp)
    have hxs : ∀ y ∈ xs, y.active = false := fun y hy => hall y (by simp [hy])
    cases i with
    | zero =>
      cases j with
      | zero =>
        simp [activate] at hj
        subst hj
        simp
      | succ j =>
        simp [activate] at hj
        have := hxs l (List.getElem?_mem hj)
        simp [this]
    | succ i =>
      cases j with
      | zero =>
        simp [activate] at hj
        subst hj
        simp [hx]
      | succ j =>
        simp only [activate, List.getElem?_cons_succ] at hj
        have := ih i j l hxs (by simpa using hi) hj
        simpa using this

theorem activate_length (ls : List NavLink) : ∀ i, (activate ls i).length = ls.length := by
  induction ls with
  | nil => intro i; rfl
  | cons x xs ih =>
    intro i
    cases i with
    | zero => rfl
    | succ i => simp [activate, ih]

theorem activate_href (ls : List NavLink) :
    ∀ i, (activate ls i).map NavLink.href = ls.map NavLink.href := by
  induction ls with
  | nil => intro i; rfl
  | cons x xs ih =>
    intro i
    cases i with
    | zero => rfl
    | succ i => simp [activate, ih]

/-! ## Reveal on scroll -/

theorem mem_addOnce {α : Type} [DecidableEq α] (l : List α) (a b : α) :
    b ∈ addOnce l a ↔ b ∈ l ∨ b = a := by
  unfold addOnce
  by_cases h : a ∈ l
  · simp only [h, if_true]
    constructor
    · exact Or.inl
    · rintro (hb | hb)
      · exact hb
      · subst hb; exact h
  · simp [h]

theorem mem_foldl_addOnce {α : Type} [DecidableEq α] (els : List α) :
    ∀ (l : List α) (b : α), b ∈ els.foldl addOnce l ↔ b ∈ l ∨ b ∈ els := by
  induction els with
  | nil => intro l b; simp
  | cons a as ih =>
    intro l b
    simp only [List.foldl_cons, ih, mem_addOnce, List.mem_cons]
    tauto

theorem revealEntry_visible {α : Type} [DecidableEq α] (st : RevealState α)
    (entry : RevealEntry α) (a : α) :
    a ∈ (revealEntry st entry).visible ↔
      a ∈ st.visible ∨ (entry.isIntersecting = true ∧ entry.target = a) := by
  unfold revealEntry
  by_cases h : entry.isIntersecting = true
  · simp only [h, if_true, mem_addOnce, true_and]
    constructor
    · rintro (h1 | h1)
      · exact Or.inl h1
      · exact Or.inr h1.symm
    · rintro (h1 | h1)
      · exact Or.inl h1
      · exact Or.inr h1.symm
  · simp [h]

theorem revealEntry_observed {α : Type} [DecidableEq α] (st : RevealState α)
    (entry : RevealEntry α) (a : α) :
    a ∈ (revealEntry st entry).observed ↔
      a ∈ st.observed ∧ ¬ (entry.isIntersecting = true ∧ entry.target = a) := by
  unfold revealEntry
  by_cases h : entry.isIntersecting = true
  · simp only [h, if_true, List.mem_filter, decide_eq_true_eq, true_and]
    constructor
    · rintro ⟨h1, h2⟩
      exact ⟨h1, fun h3 => h2 h3.symm⟩
    · rintro ⟨h1, h2⟩
      exact ⟨h1, fun h3 => h2 h3.symm⟩
  · simp [h]

theorem foldl_revealEntry_visible {α : Type} [DecidableEq α] (entries : List (RevealEntry α)) :
    ∀ (st : RevealState α) (a : α),
      a ∈ (entries.foldl revealEntry st).visible ↔
        a ∈ st.visible ∨ ∃ e ∈ entries, e.isIntersecting = true ∧ e.target = a := by
  induction entries with
  | nil => intro st a; simp
  | cons e es ih =>
    intro st a
    simp only [List.foldl_cons, ih, revealEntry_visible, List.mem_cons, exists_eq_or_imp]
    tauto

theorem foldl_revealEntry_observed {α : Type} [DecidableEq α] (entries : List (RevealEntry α)) :
    ∀ (st : RevealState α) (a : α),
      a ∈ (entries.foldl revealEntry st).observed ↔
        a ∈ st.observed ∧ ¬ ∃ e ∈ entries, e.isIntersecting = true ∧ e.target = a := by
  induction entries with
  | nil => intro st a; simp
  | cons e es ih =>
    intro st a
    simp only [List.foldl_cons, ih, revealEntry_observed, List.mem_cons, exists_eq_or_imp]
    generalize (∃ e ∈ es, e.isIntersecting = true ∧ e.target = a) = P
    tauto

theorem revealRun_eq_foldl {α : Type} [DecidableEq α] (batches : List (List (RevealEntry α))) :
    ∀ (st : RevealState α), revealRun st batches = batches.flatten.foldl revealEntry st := by
  induction batches with
  | nil => intro st; rfl
  | cons b bs ih =>
    intro st
    simp only [revealRun, List.foldl_cons, List.flatten_cons, List.foldl_append]
    exact ih (revealCallback st b)

theorem markings_trace {α : Type} [DecidableEq α] (a : α) (entries : List (RevealEntry α)) :
    ∀ (st : RevealState α),
      unmarkings a (revealTrace st entries) = 0 ∧
      markings a (revealTrace st entries) ≤ 1 ∧
      (a ∈ st.visible → markings a (revealTrace st entries) = 0) ∧
      (revealTrace st entries).getLast? = some (entries.foldl revealEntry st) := by
  induction entries with
  | nil => intro st; simp [revealTrace, markings, unmarkings]
  | cons e es ih =>
    intro st
    obtain ⟨h1, h2, h3, h4⟩ := ih (revealEntry st e)
    have hmono : a ∈ st.visible → a ∈ (revealEntry st e).visible :=
      fun h => (revealEntry_visible st e a).mpr (Or.inl h)
    have hshape : ∃ t rest, revealTrace (revealEntry st e) es = t :: rest ∧
        t = revealEntry st e := by
      cases es <;> exact ⟨_, _, rfl, rfl⟩
    obtain ⟨t, rest, ht, htt⟩ := hshape
    simp only [revealTrace, List.foldl_cons]
    rw [ht] at h1 h2 h3 h4 ⊢
    subst htt
    refine ⟨?_, ?_, ?_, ?_⟩
    · simp only [unmarkings, h1, Nat.add_zero]
      by_cases hv : a ∈ st.visible
      · simp [hv, hmono hv]
      · simp [hv]
    · simp only [markings]
      by_cases hv : a ∈ (revealEntry st e).visible
      · rw [h3 hv]
        split <;> omega
      · simp only [hv, and_false, if_false]
        omega
    · intro hv
      simp only [markings, hv, not_true_eq_false, false_and, if_false, Nat.zero_add]
      exact h3 (hmono hv)
    · rw [List.getLast?_cons_cons]
      exact h4

/-- C9: when the reduced-motion preference is active, or `IntersectionObserver` is
unavailable, or there is no `.reveal` element, `setupRevealOnScroll` marks every element of
the list `reveal-visible` and observes none; otherwise it leaves the marked elements as they
were and the observed elements are exactly the elements of the list. -/
theorem setupRevealOnScroll_fallback_or_observe {α : Type} [DecidableEq α] (env : RevealEnv)
    (revealEls visible : List α) :
    ((env.matchMedia = some true ∨ env.hasIntersectionObserver = false ∨ revealEls = []) →
      (∀ a ∈ revealEls, a ∈ (setupRevealOnScroll env revealEls visible).visible) ∧
      (setupRevealOnScroll env revealEls visible).observed = []) ∧
    (¬ (env.matchMedia = some true ∨ env.hasIntersectionObserver = false ∨ revealEls = []) →
      (setupRevealOnScroll env revealEls visible).visible = visible ∧
      ∀ a, a ∈ (setupRevealOnScroll env revealEls visible).observed ↔ a ∈ revealEls) := by
  have hfall : ∀ (c : Bool), c = true →
      (∀ a ∈ revealEls, a ∈ (if c then
          ({ visible := revealEls.foldl addOnce visible, observed := [] } : RevealState α)
        else { visible := visible, observed := revealEls.foldl addOnce [] }).visible) ∧
      (if c then
          ({ visible := revealEls.foldl addOnce visible, observed := [] } : RevealState α)
        else { visible := visible, observed := revealEls.foldl addOnce [] }).observed = [] := by
    intro c hc
    subst hc
    exact ⟨fun a ha => (mem_foldl_addOnce revealEls visible a).mpr (Or.inr ha), rfl⟩
  have hobs : ∀ (c : Bool), c = false →
      (if c then
          ({ visible := revealEls.foldl addOnce visible, observed := [] } : RevealState α)
        else { visible := visible, observed := revealEls.foldl addOnce [] }).visible = visible ∧
      ∀ a, a ∈ (if c then
          ({ visible := revealEls.foldl addOnce visible, observed := [] } : RevealState α)
        else { visible := visible, observed := revealEls.foldl addOnce [] }).observed ↔
        a ∈ revealEls := by
    intro c hc
    subst hc
    refine ⟨rfl, fun a => ?_⟩
    simpa using mem_foldl_addOnce revealEls [] a
  have hlen : (revealEls.length == 0) = true ↔ revealEls = [] := by
    cases revealEls <;> simp
  obtain ⟨mm, io⟩ := env
  constructor
  · intro h
    apply hfall
    rcases h with h | h | h
    · simp only at h; subst h; simp
    · simp only at h; subst h; simp
    · subst h; simp
  · intro h
    apply hobs
    simp only [not_or] at h
    obtain ⟨h1, h2, h3⟩ := h
    have h3' : (revealEls.length == 0) = false := by
      cases hb : (revealEls.length == 0)
      · rfl
      · exact absurd (hlen.mp hb) h3
    have h2' : io = true := by simpa using h2
    cases mm with
    | none => simp [h2', h3']
    | some m =>
      have : m = false := by
        cases m
        · rfl
        · simp at h1
      simp [this, h2', h3']

/-- C10: over every sequence of callback batches started in any state, an element that
carries `reveal-visible` keeps it (no step of the trace un-marks it), an element goes from
unmarked to marked in at most one step, an element is marked at the end exactly when it
was marked before or an intersecting entry named it, and an element is still observed at
the end exactly when it was observed before and no intersecting entry named it; so an
element that the callback has marked is no longer observed. -/
theorem reveal_is_one_shot {α : Type} [DecidableEq α] (st : RevealState α)
    (batches : List (List (RevealEntry α))) (a : α) :
    (a ∈ st.visible → a ∈ (revealRun st batches).visible) ∧
    (a ∈ (revealRun st batches).visible ↔
      a ∈ st.visible ∨ ∃ e ∈ batches.flatten, e.isIntersecting = true ∧ e.target = a) ∧
    (a ∈ (revealRun st batches).observed ↔
      a ∈ st.observed ∧ ¬ ∃ e ∈ batches.flatten, e.isIntersecting = true ∧ e.target = a) ∧
    ((∃ e ∈ batches.flatten, e.isIntersecting = true ∧ e.target = a) →
      a ∈ (revealRun st batches).visible ∧ a ∉ (revealRun st batches).observed) ∧
    (revealTrace st batches.flatten).getLast? = some (revealRun st batches) ∧
    unmarkings a (revealTrace st batches.flatten) = 0 ∧
    markings a (revealTrace st batches.flatten) ≤ 1 := by
  rw [revealRun_eq_foldl]
  have hv := foldl_revealEntry_visible batches.flatten st a
  have ho := foldl_revealEntry_observed batches.flatten st a
  obtain ⟨h1, h2, _, h4⟩ := markings_trace a batches.flatten st
  refine ⟨fun h => hv.mpr (Or.inl h), hv, ho, ?_, h4, h1, h2⟩
  intro h
  exact ⟨hv.mpr (Or.inr h), fun hobs => (ho.mp hobs).2 h⟩

/-- Witness of `setupRevealOnScroll_fallback_or_observe`: three elements, element 2 marked
before; once with the reduced-motion preference, once without. -/
theorem setupRevealOnScroll_witness :
    ((∀ a ∈ [1, 2, 3], a ∈ (setupRevealOnScroll ⟨some true, true⟩ [1, 2, 3] [2]).visible) ∧
      (setupRevealOnScroll ⟨some true, true⟩ [1, 2, 3] [2]).observed = []) ∧
    ((setupRevealOnScroll ⟨some false, true⟩ [1, 2, 3] [2]).visible = [2] ∧
      ∀ a, a ∈ (setupRevealOnScroll ⟨some false, true⟩ [1, 2, 3] [2]).observed ↔
        a ∈ [1, 2, 3]) :=
  ⟨(setupRevealOnScroll_fallback_or_observe ⟨some true, true⟩ [1, 2, 3] [2]).1 (Or.inl rfl),
   (setupRevealOnScroll_fallback_or_observe ⟨some false, true⟩ [1, 2, 3] [2]).2 (by decide)⟩

/-- Witness of `reveal_is_one_shot`: element 1 enters, leaves and enters again, element 2
never intersects. -/
theorem reveal_is_one_shot_witness :
    (1 ∈ (revealRun ⟨[], [1, 2]⟩
        [[⟨1, true⟩, ⟨2, false⟩], [⟨1, false⟩], [⟨1, true⟩]]).visible ∧
      1 ∉ (revealRun ⟨[], [1, 2]⟩
        [[⟨1, true⟩, ⟨2, false⟩], [⟨1, false⟩], [⟨1, true⟩]]).observed) ∧
    revealRun ⟨[], [1, 2]⟩ [[⟨1, true⟩, ⟨2, false⟩], [⟨1, false⟩], [⟨1, true⟩]] =
      ⟨[1], [2]⟩ ∧
    markings 1 (revealTrace ⟨[], [1, 2]⟩
      [⟨1, true⟩, ⟨2, false⟩, ⟨1, false⟩, ⟨1, true⟩]) = 1 :=
  ⟨(reveal_is_one_shot ⟨[], [1, 2]⟩
      [[⟨1, true⟩, ⟨2, false⟩], [⟨1, false⟩], [⟨1, true⟩]] 1).2.2.2.1
      ⟨⟨1, true⟩, by decide, rfl, rfl⟩,
   by decide, by decide⟩

theorem fragment_eq_of_href (a b : NavLink) (h : a.href = b.href) : fragment a = fragment b := by
  unfold fragment
  rw [h]

theorem lastLinkIndex_congr (key : String) :
    ∀ (ls ms : List NavLink), ls.map NavLink.href = ms.map NavLink.href →
      lastLinkIndex key ls = lastLinkIndex key ms := by
  intro ls
  induction ls with
  | nil =>
    intro ms h
    cases ms with
    | nil => rfl
    | cons m ms => simp at h
  | cons l ls ih =>
    intro ms h
    cases ms with
    | nil => simp at h
    | cons m ms =>
      simp only [List.map_cons, List.cons.injEq] at h
      simp only [lastLinkIndex, ih ms h.2, fragment_eq_of_href l m h.1]

/-- C8: the link map is built at setup from `navLinks0`; later the links `navLinks` have
the same `href`s and any `active` markers. For an intersecting entry whose section id is
the fragment of some link, after the callback exactly one link is active, its fragment is
the section id, and no `href` has changed; an entry that is not intersecting, or whose id
is the fragment of no link, leaves every link as it was. -/
theorem scrollSpy_marks_only_target (navLinks0 navLinks : List NavLink) (entry : SpyEntry)
    (hrefs : navLinks.map NavLink.href = navLinks0.map NavLink.href) :
    (entry.isIntersecting = true → (∃ l ∈ navLinks, fragment l = entry.targetId) →
      ∃ i target, navLinks[i]? = some target ∧ fragment target = entry.targetId ∧
        (spyEntry (buildLinkMap navLinks0) navLinks entry).map NavLink.href =
          navLinks.map NavLink.href ∧
        ∀ (j : Nat) (l : NavLink),
          (spyEntry (buildLinkMap navLinks0) navLinks entry)[j]? = some l →
          (l.active = true ↔ j = i)) ∧
    ((entry.isIntersecting = false ∨ ¬ ∃ l ∈ navLinks, fragment l = entry.targetId) →
      spyEntry (buildLinkMap navLinks0) navLinks entry = navLinks) := by
  have hmap : mapGet (buildLinkMap navLinks0) entry.targetId =
      lastLinkIndex entry.targetId navLinks := by
    rw [mapGet_buildLinkMap]
    exact (lastLinkIndex_congr _ _ _ hrefs).symm
  constructor
  · intro hint hex
    cases hidx : lastLinkIndex entry.targetId navLinks with
    | none => exact absurd hex ((lastLinkIndex_none _ _).mp hidx)
    | some i =>
      obtain ⟨target, ht, hf⟩ := lastLinkIndex_some _ _ _ hidx
      refine ⟨i, target, ht, hf, ?_, ?_⟩
      · simp only [spyEntry, hmap, hidx, hint, if_true, activate_href, List.map_map]
        apply List.map_congr_left
        intro l _
        rfl
      · intro j l hj
        simp only [spyEntry, hmap, hidx, hint, if_true] at hj
        have hi : i < navLinks.length := by
          rcases Nat.lt_or_ge i navLinks.length with h | h
          · exact h
          · rw [List.getElem?_eq_none h] at ht
            cases ht
        exact activate_getElem? _ i j l (by simp) (by simpa using hi) hj
  · rintro (h | h)
    · simp only [spyEntry, h]
      cases mapGet (buildLinkMap navLinks0) entry.targetId <;> simp
    · have := (lastLinkIndex_none entry.targetId navLinks).mpr h
      simp [spyEntry, hmap, this]

/-- Witness of `scrollSpy_marks_only_target`: three links, `#home` active before, the
section `about` becomes the intersecting target. -/
theorem scrollSpy_marks_only_target_witness :
    spyEntry (buildLinkMap [⟨"#home", false⟩, ⟨"#about", false⟩, ⟨"#contact", false⟩])
      [⟨"#home", true⟩, ⟨"#about", false⟩, ⟨"#contact", false⟩] ⟨"about", true⟩ =
      [⟨"#home", false⟩, ⟨"#about", true⟩, ⟨"#contact", false⟩] ∧
    ∃ i target,
      [(⟨"#home", true⟩ : NavLink), ⟨"#about", false⟩, ⟨"#contact", false⟩][i]? = some target ∧
      fragment target = "about" ∧
      ∀ (j : Nat) (l : NavLink),
        (spyEntry (buildLinkMap [⟨"#home", false⟩, ⟨"#about", false⟩, ⟨"#contact", false⟩])
          [⟨"#home", true⟩, ⟨"#about", false⟩, ⟨"#contact", false⟩] ⟨"about", true⟩)[j]? =
          some l → (l.active = true ↔ j = i) :=
  have h := (scrollSpy_marks_only_target
    [⟨"#home", false⟩, ⟨"#about", false⟩, ⟨"#contact", false⟩]
    [⟨"#home", true⟩, ⟨"#about", false⟩, ⟨"#contact", false⟩] ⟨"about", true⟩ rfl).1 rfl
    ⟨⟨"#about", false⟩, by decide, by decide⟩
  ⟨by decide, h.elim fun i hi => hi.elim fun target ht => ⟨i, target, ht.1, ht.2.1, ht.2.2.2⟩⟩

/-! ## Forms -/

theorem getForm_modifyForm {V : Type} (p : Page V) (id id2 : FormId) (f : Form V → Form V) :
    (p.modifyForm id f).getForm id2 =
      if id = id2 then (p.getForm id2).map f else p.getForm id2 := by
  cases id <;> cases id2 <;> simp [Page.modifyForm, Page.getForm]

theorem fieldListeners_modifyForm {V : Type} (p : Page V) (id : FormId) (f : Form V → Form V) :
    (p.modifyForm id f).fieldListeners = p.fieldListeners := by
  cases id <;> rfl

theorem submitListeners_modifyForm {V : Type} (p : Page V) (id : FormId)
    (f : Form V → Form V) :
    (p.modifyForm id f).submitListeners = p.submitListeners := by
  cases id <;> rfl

theorem timers_modifyForm {V : Type} (p : Page V) (id : FormId) (f : Form V → Form V) :
    (p.modifyForm id f).timers = p.timers := by
  cases id <;> rfl

theorem keepsShape_updateState {V : Type} (cv : V → Bool) : KeepsShape (updateState cv) := by
  intro form
  unfold updateState
  cases h : form.submitBtn with
  | none => simp [h]
  | some b => simp

theorem keepsShape_submitListener {V : Type} : KeepsShape (submitListener (V := V)) := by
  intro form
  unfold submitListener
  cases h : form.submitBtn with
  | none => simp
  | some b => simp

theorem keepsShape_restoreCallback {V : Type} : KeepsShape (restoreCallback (V := V)) := by
  intro form
  unfold restoreCallback
  cases h : form.submitBtn with
  | none => simp
  | some b => simp

theorem keepsShape_setContent {V : Type} (v : V) :
    KeepsShape (fun form : Form V => { form with content := v }) := by
  intro form
  simp

theorem wired_modifyForm {V : Type} (p : Page V) (id id2 : FormId) (inputs : List Nat)
    (f : Form V → Form V) (hf : KeepsShape f) (h : Wired p id inputs) :
    Wired (p.modifyForm id2 f) id inputs := by
  obtain ⟨⟨form, b, h1, h2, h3⟩, h4⟩ := h
  refine ⟨?_, ?_⟩
  · rw [getForm_modifyForm]
    by_cases hid : id2 = id
    · obtain ⟨b2, hb2⟩ := (hf form).2 ⟨b, h2⟩
      exact ⟨f form, b2, by simp [hid, h1], hb2, by rw [(hf form).1, h3]⟩
    · exact ⟨form, b, by simp [hid, h1], h2, h3⟩
  · rw [fieldListeners_modifyForm]
    exact h4

theorem wired_foldl_updateState {V : Type} (cv : V → Bool) (id : FormId) (inputs : List Nat)
    (ls : List FieldListener) :
    ∀ p : Page V, Wired p id inputs →
      Wired (ls.foldl (fun r l => r.modifyForm l.form (updateState cv)) p) id inputs := by
  induction ls with
  | nil => intro p h; exact h
  | cons l ls ih =>
    intro p h
    exact ih _ (wired_modifyForm p id l.form inputs _ (keepsShape_updateState cv) h)

theorem wired_foldl_submit {V : Type} (id : FormId) (inputs : List Nat) (ls : List FormId) :
    ∀ p : Page V, Wired p id inputs →
      Wired (ls.foldl
        (fun r f => { r.modifyForm f submitListener with timers := r.timers ++ [f] }) p)
        id inputs := by
  induction ls with
  | nil => intro p h; exact h
  | cons l ls ih =>
    intro p h
    apply ih
    have := wired_modifyForm p id l inputs _ keepsShape_submitListener h
    exact this

theorem wired_pageStep {V : Type} (cv : V → Bool) (p q : Page V) (ev : PageEvent V)
    (id : FormId) (inputs : List Nat) (h : Wired p id inputs)
    (hstep : pageStep cv p ev = some q) : Wired q id inputs := by
  cases ev with
  | field fid target type content =>
    simp only [pageStep, Option.some.injEq] at hstep
    subst hstep
    unfold dispatchField
    simp only
    apply wired_foldl_updateState
    exact wired_modifyForm p id fid inputs _ (keepsShape_setContent content) h
  | submit fid =>
    simp only [pageStep] at hstep
    cases hf : p.getForm fid with
    | none => simp [hf] at hstep
    | some form =>
      simp only [hf] at hstep
      split at hstep
      · simp only [Option.some.injEq] at hstep
        subst hstep
        exact wired_foldl_submit id inputs _ p h
      · cases hstep
  | timer fid =>
    simp only [pageStep] at hstep
    split at hstep
    · simp only [Option.some.injEq] at hstep
      subst hstep
      exact wired_modifyForm p id fid inputs _ keepsShape_restoreCallback h
    · cases hstep

theorem wired_pageRun {V : Type} (cv : V → Bool) (id : FormId) (inputs : List Nat)
    (events : List (PageEvent V)) :
    ∀ p q : Page V, Wired p id inputs → pageRun cv p events = some q → Wired q id inputs := by
  induction events with
  | nil =>
    intro p q h hrun
    simp only [pageRun, Option.some.injEq] at hrun
    subst hrun
    exact h
  | cons ev rest ih =>
    intro p q h hrun
    simp only [pageRun] at hrun
    cases hs : pageStep cv p ev with
    | none => simp [hs] at hrun
    | some r =>
      simp only [hs] at hrun
      exact ih r q (wired_pageStep cv p r ev id inputs h hs) hrun

theorem tracks_of_updateState {V : Type} (cv : V → Bool) (p : Page V) (id : FormId) (v : V)
    (h : Holds p id v) : Tracks cv (p.modifyForm id (updateState cv)) id v := by
  obtain ⟨form, b, h1, h2, h3⟩ := h
  refine ⟨updateState cv form, { b with disabled := !cv form.content }, ?_, ?_, ?_, ?_⟩
  · rw [getForm_modifyForm]; simp [h1]
  · simp [updateState, h2]
  · simp [updateState, h2, h3]
  · simp [h3]

theorem holds_of_tracks {V : Type} (cv : V → Bool) (p : Page V) (id : FormId) (v : V)
    (h : Tracks cv p id v) : Holds p id v := by
  obtain ⟨form, b, h1, h2, h3, _⟩ := h
  exact ⟨form, b, h1, h2, h3⟩

theorem holds_updateState_other {V : Type} (cv : V → Bool) (p : Page V) (id id2 : FormId)
    (v : V) (hne : id2 ≠ id) (h : Holds p id v) :
    Holds (p.modifyForm id2 (updateState cv)) id v := by
  obtain ⟨form, b, h1, h2, h3⟩ := h
  exact ⟨form, b, by rw [getForm_modifyForm]; simp [hne, h1], h2, h3⟩

theorem tracks_updateState_any {V : Type} (cv : V → Bool) (p : Page V) (id id2 : FormId)
    (v : V) (h : Tracks cv p id v) : Tracks cv (p.modifyForm id2 (updateState cv)) id v := by
  by_cases hid : id2 = id
  · subst hid
    exact tracks_of_updateState cv p id2 v (holds_of_tracks cv p id2 v h)
  · obtain ⟨form, b, h1, h2, h3, h4⟩ := h
    exact ⟨form, b, by rw [getForm_modifyForm]; simp [hid, h1], h2, h3, h4⟩

theorem tracks_foldl {V : Type} (cv : V → Bool) (id : FormId) (v : V)
    (ls : List FieldListener) :
    ∀ p : Page V, Tracks cv p id v →
      Tracks cv (ls.foldl (fun r l => r.modifyForm l.form (updateState cv)) p) id v := by
  induction ls with
  | nil => intro p h; exact h
  | cons l ls ih =>
    intro p h
    exact ih _ (tracks_updateState_any cv p id l.form v h)

theorem tracks_foldl_of_mem {V : Type} (cv : V → Bool) (id : FormId) (v : V)
    (ls : List FieldListener) :
    ∀ p : Page V, Holds p id v → (∃ l ∈ ls, l.form = id) →
      Tracks cv (ls.foldl (fun r l => r.modifyForm l.form (updateState cv)) p) id v := by
  induction ls with
  | nil => intro p _ h; simp at h
  | cons l ls ih =>
    intro p hp hmem
    simp only [List.foldl_cons]
    by_cases hl : l.form = id
    · apply tracks_foldl
      rw [hl]
      exact tracks_of_updateState cv p id v hp
    · apply ih _ (holds_updateState_other cv p id l.form v hl hp)
      obtain ⟨l2, h1, h2⟩ := hmem
      simp only [List.mem_cons] at h1
      rcases h1 with h1 | h1
      · subst h1; exact absurd h2 hl
      · exact ⟨l2, h1, h2⟩

theorem tracks_dispatchField {V : Type} (cv : V → Bool) (p : Page V) (id : FormId)
    (inputs : List Nat) (target : Nat) (type : FieldEventType) (content : V)
    (hw : Wired p id inputs) (ht : target ∈ inputs) :
    Tracks cv (dispatchField cv p id target type content) id content := by
  obtain ⟨⟨form, b, h1, h2, h3⟩, h4⟩ := hw
  unfold dispatchField
  simp only
  apply tracks_foldl_of_mem
  · exact ⟨{ form with content := content }, b, by rw [getForm_modifyForm]; simp [h1], h2, rfl⟩
  · refine ⟨⟨target, type, id⟩, ?_, rfl⟩
    rw [List.mem_filter, fieldListeners_modifyForm]
    exact ⟨h4 target ht type, by simp⟩

theorem mem_foldl_listeners (id : FormId) (inputs : List Nat) :
    ∀ (ls : List FieldListener) (l : FieldListener),
      l ∈ inputs.foldl (fun ls el => ls ++ [⟨el, .input, id⟩, ⟨el, .change, id⟩]) ls ↔
        l ∈ ls ∨ ∃ el ∈ inputs, l = ⟨el, .input, id⟩ ∨ l = ⟨el, .change, id⟩ := by
  induction inputs with
  | nil => intro ls l; simp
  | cons el els ih =>
    intro ls l
    simp only [List.foldl_cons, ih, List.mem_append, List.mem_cons, List.mem_singleton,
      List.not_mem_nil, or_false, exists_eq_or_imp]
    generalize (∃ a ∈ els, l = (⟨a, .input, id⟩ : FieldListener) ∨ l = ⟨a, .change, id⟩) = P
    tauto

theorem applyValidation_wired {V : Type} (cv : V → Bool) (p : Page V) (id : FormId)
    (form : Form V) (b : SubmitButton) (hform : p.getForm id = some form)
    (hbtn : form.submitBtn = some b) :
    Wired (applyValidation cv p id) id form.inputs ∧
    Tracks cv (applyValidation cv p id) id form.content := by
  unfold applyValidation
  simp only [hform]
  constructor
  · apply wired_modifyForm _ _ _ _ _ (keepsShape_updateState cv)
    refine ⟨⟨form, b, ?_, hbtn, rfl⟩, ?_⟩
    · cases id <;> simpa [Page.getForm] using hform
    · intro t ht ty
      simp only
      rw [mem_foldl_listeners]
      right
      refine ⟨t, ht, ?_⟩
      cases ty <;> simp
  · apply tracks_of_updateState
    refine ⟨form, b, ?_, hbtn, rfl⟩
    cases id <;> simpa [Page.getForm] using hform

theorem applyValidation_other {V : Type} (cv : V → Bool) (p : Page V) (id id2 : FormId)
    (inputs : List Nat) (v : V) (hne : id2 ≠ id) :
    (Wired p id inputs → Wired (applyValidation cv p id2) id inputs) ∧
    (Tracks cv p id v → Tracks cv (applyValidation cv p id2) id v) ∧
    (applyValidation cv p id2).getForm id = p.getForm id := by
  unfold applyValidation
  cases hf : p.getForm id2 with
  | none => simp
  | some form2 =>
    simp only
    refine ⟨?_, ?_, ?_⟩
    · intro hw
      apply wired_modifyForm _ _ _ _ _ (keepsShape_updateState cv)
      obtain ⟨⟨form, b, h1, h2, h3⟩, h4⟩ := hw
      refine ⟨⟨form, b, ?_, h2, h3⟩, ?_⟩
      · cases id <;> simpa [Page.getForm] using h1
      · intro t ht ty
        simp only
        rw [mem_foldl_listeners]
        exact Or.inl (h4 t ht ty)
    · intro ht
      apply tracks_updateState_any
      obtain ⟨form, b, h1, h2, h3, h4⟩ := ht
      refine ⟨form, b, ?_, h2, h3, h4⟩
      cases id <;> simpa [Page.getForm] using h1
    · rw [getForm_modifyForm]
      simp only [hne, if_false]
      cases id <;> rfl

theorem setupFormValidation_wired {V : Type} (cv : V → Bool) (p : Page V) (id : FormId)
    (form : Form V) (b : SubmitButton) (hform : p.getForm id = some form)
    (hbtn : form.submitBtn = some b) :
    Wired (setupFormValidation cv p) id form.inputs ∧
    Tracks cv (setupFormValidation cv p) id form.content := by
  unfold setupFormValidation
  cases id with
  | bookingForm =>
    obtain ⟨h1, h2⟩ := applyValidation_wired cv p .bookingForm form b hform hbtn
    obtain ⟨h3, h4, _⟩ := applyValidation_other cv (applyValidation cv p .bookingForm)
      .bookingForm .workshopForm form.inputs form.content (by decide)
    exact ⟨h3 h1, h4 h2⟩
  | workshopForm =>
    obtain ⟨_, _, h5⟩ := applyValidation_other cv p .workshopForm .bookingForm form.inputs
      form.content (by decide)
    exact applyValidation_wired cv _ .workshopForm form b (h5.trans hform) hbtn

/-- C6: for a known form with a submit button, right after `setupFormValidation` and
right after every `input` or `change` event on one of its controls, in any state reached
from the wired page by field, submit and timer events, the submit button is disabled
exactly when the validity check of the form content fails. -/
theorem validation_tracks_validity {V : Type} (checkValidity : V → Bool) (p0 : Page V)
    (id : FormId) (form0 : Form V) (b0 : SubmitButton)
    (hform : p0.getForm id = some form0) (hbtn : form0.submitBtn = some b0) :
    (∃ form b, (setupFormValidation checkValidity p0).getForm id = some form ∧
      form.submitBtn = some b ∧ form.content = form0.content ∧
      b.disabled = !checkValidity form0.content) ∧
    ∀ (events : List (PageEvent V)) (p : Page V),
      pageRun checkValidity (setupFormValidation checkValidity p0) events = some p →
      ∀ target ∈ form0.inputs, ∀ (type : FieldEventType) (content : V),
        ∃ form b, (dispatchField checkValidity p id target type content).getForm id = some form ∧
          form.submitBtn = some b ∧ form.content = content ∧
          b.disabled = !checkValidity content := by
  obtain ⟨hw, ht⟩ := setupFormValidation_wired checkValidity p0 id form0 b0 hform hbtn
  refine ⟨ht, ?_⟩
  intro events p hrun target htarget type content
  have hwp := wired_pageRun checkValidity id form0.inputs events _ p hw hrun
  exact tracks_dispatchField checkValidity p id form0.inputs target type content hwp htarget

/-- C5 (as amended): for a form with a submit button labelled `t`, the submit listener
sets the label to `Sending...`, disables the button and sets `aria-busy`; the restore
callback run right after it leaves the button enabled and the form without `aria-busy`,
and the label is `t` when `t` is not empty and `Submit` when `t` is empty. -/
theorem submit_then_restore {V : Type} (form : Form V) (b : SubmitButton)
    (hbtn : form.submitBtn = some b) :
    (submitListener form).submitBtn =
      some { textContent := "Sending...", disabled := true,
             originalText := some b.textContent } ∧
    (submitListener form).ariaBusy = some "true" ∧
    (restoreCallback (submitListener form)).submitBtn =
      some { textContent := if b.textContent = "" then "Submit" else b.textContent,
             disabled := false, originalText := some b.textContent } ∧
    (restoreCallback (submitListener form)).ariaBusy = none ∧
    (restoreCallback (submitListener form)).content = form.content ∧
    (restoreCallback (submitListener form)).inputs = form.inputs := by
  have h0 : (if b.textContent = "" then "" else b.textContent) = b.textContent := by
    split
    · rename_i h; exact h.symm
    · rfl
  simp [submitListener, restoreCallback, hbtn, h0]

/-- Witness of `submit_then_restore` on a button labelled `Book now`. -/
theorem submit_then_restore_witness :
    (restoreCallback (submitListener
      ({ submitBtn := some ⟨"Book now", false, none⟩, inputs := [0], content := true,
         ariaBusy := none } : Form Bool))).submitBtn =
      some { textContent := "Book now", disabled := false, originalText := some "Book now" } ∧
    (restoreCallback (submitListener
      ({ submitBtn := some ⟨"Book now", false, none⟩, inputs := [0], content := true,
         ariaBusy := none } : Form Bool))).ariaBusy = none :=
  have h := submit_then_restore
    ({ submitBtn := some ⟨"Book now", false, none⟩, inputs := [0], content := true,
       ariaBusy := none } : Form Bool) ⟨"Book now", false, none⟩ rfl
  ⟨h.2.2.1, h.2.2.2.1⟩

/-- Counterexample to C5 as stated: a submit button with the empty label is labelled
`Submit` after the submit listener and the restore callback, not with its pre-submit text. -/
theorem restore_label_counterexample :
    ∃ b2, (restoreCallback (submitListener
      ({ submitBtn := some ⟨"", false, none⟩, inputs := [], content := (), ariaBusy := none } :
        Form Unit))).submitBtn = some b2 ∧ b2.textContent = "Submit" ∧ b2.textContent ≠ "" :=
  ⟨⟨"Submit", false, some ""⟩, rfl, rfl, by decide⟩

/-- C7, the code at the failing input: on a page whose booking form is valid at load (its
submit button is enabled after the load handler), the events submit, an `input` event that
empties the required field, and the restore timer are all deliverable, and they end in a
state where the form is invalid and its submit button is enabled. -/
theorem restore_enables_invalid_form :
    (initForms requiredFilled bookingOnlyPage).bookingForm = some
      { submitBtn := some ⟨"Book now", false, none⟩, inputs := [0], content := true,
        ariaBusy := none } ∧
    pageRun requiredFilled (initForms requiredFilled bookingOnlyPage)
        [.submit .bookingForm, .field .bookingForm 0 .input false, .timer .bookingForm]
      = some
        { bookingForm := some
            { submitBtn := some ⟨"Book now", false, some "Book now"⟩, inputs := [0],
              content := false, ariaBusy := none }
          workshopForm := none
          fieldListeners := [⟨0, .input, .bookingForm⟩, ⟨0, .change, .bookingForm⟩]
          submitListeners := [.bookingForm]
          timers := [] } ∧
    requiredFilled false = false := by
  decide

/-- Witness of `validation_tracks_validity` on the booking form of `bookingOnlyPage`. -/
theorem validation_tracks_validity_witness :
    (∃ form b, (setupFormValidation requiredFilled bookingOnlyPage).getForm .bookingForm =
        some form ∧ form.submitBtn = some b ∧ form.content = true ∧
        b.disabled = !requiredFilled true) ∧
    ∀ (events : List (PageEvent Bool)) (p : Page Bool),
      pageRun requiredFilled (setupFormValidation requiredFilled bookingOnlyPage) events =
        some p →
      ∀ target ∈ [0], ∀ (type : FieldEventType) (content : Bool),
        ∃ form b, (dispatchField requiredFilled p .bookingForm target type content).getForm
            .bookingForm = some form ∧
          form.submitBtn = some b ∧ form.content = content ∧
          b.disabled = !requiredFilled content :=
  validation_tracks_validity requiredFilled bookingOnlyPage .bookingForm
    { submitBtn := some ⟨"Book now", false, none⟩, inputs := [0], content := true,
      ariaBusy := none }
    ⟨"Book now", false, none⟩ rfl rfl

/-! ## Rounding error of the conversion -/

/-- C2: an absent argument, the empty string, and every string without an occurrence of
`$` followed by a digit give the default price 15; the function is total, it has a value
for every input. -/
theorem parsePrice_default :
    parsePriceFromString none = JSNum.ofNat 15 ∧
    parsePriceFromString (some "") = JSNum.ofNat 15 ∧
    (∀ s : String, containsPrice s.data = false →
      parsePriceFromString (some s) = JSNum.ofNat 15) ∧
    (∀ input : Option String, ∃ v : JSNum, parsePriceFromString input = v) :=
  ⟨rfl, rfl, parsePrice_of_no_price, fun _ => ⟨_, rfl⟩⟩

/-- Witness of `parsePrice_default` on `Free ($ 15 off)`. -/
theorem parsePrice_default_witness :
    parsePriceFromString (some "Free ($ 15 off.)") = JSNum.ofNat 15 :=
  parsePrice_default.2.2.1 "Free ($ 15 off.)" (by decide)

/-- Number::toString of the Number of a natural number below `2^53` is its decimal
numeral. -/
theorem toF64_nat_toJSString (n : Nat) (h : n < 2 ^ 53) :
    (toF64 false n 1).toJSString = String.mk (Nat.toDigits 10 n) := by
  rcases Nat.eq_zero_or_pos n with h0 | h0
  · subst h0
    rw [toF64_zero]
    rfl
  · have hex := toF64_exactInt false n 1 h0 h (le_refl 1)
    rw [Nat.mul_one] at hex
    rw [toJSString_exactInt _ _ _ hex h]
    simp

/-- C4: when `#workshopType` and `#workshopPrice` are present, `updateWorkshopPrice` writes
`Price: $` followed by the rendering of `parsePriceFromString(v)` into `#workshopPrice` and
exactly that rendering into `#workshopTotalPrice` when that element is present, and changes
nothing else. When the first price of `v` has no fraction and is below `2^53`, the
rendering is the decimal numeral of the price. -/
theorem updateWorkshopPrice_mirrors (d : PriceDom) (v priceText : String)
    (hv : d.workshopTypeEl = some v) (hp : d.workshopPriceEl = some priceText) :
    updateWorkshopPrice d =
      { d with
        workshopPriceEl := some ("Price: $" ++ (parsePriceFromString (some v)).toJSString)
        workshopHiddenPriceEl := d.workshopHiddenPriceEl.map (fun _ =>
          (parsePriceFromString (some v)).toJSString) } ∧
    (∀ pre tail, v.data = pre ++ '$' :: tail → containsPrice pre = false →
      startsPrice ('$' :: tail) = true →
      fractionDigits (tail.dropWhile Char.isDigit) = [] →
      digitsVal (tail.takeWhile Char.isDigit) < 2 ^ 53 →
      (parsePriceFromString (some v)).toJSString =
        String.mk (Nat.toDigits 10 (digitsVal (tail.takeWhile Char.isDigit)))) := by
  have h0 : (if v = "" then "" else v) = v := by
    split
    · rename_i h; exact h.symm
    · rfl
  constructor
  · unfold updateWorkshopPrice
    simp only [hv, hp, h0]
    cases d.workshopHiddenPriceEl <;> rfl
  · intro pre tail hs hpre htail hfrac hlt
    have hs2 : v = String.mk (pre ++ '$' :: tail) := by
      cases v
      simp only at hs
      rw [hs]
    rw [hs2, parsePrice_of_split pre tail hpre htail]
    simp only [priceAfterDollar, decimalNumber, hfrac, List.append_nil, List.length_nil,
      pow_zero]
    exact toF64_nat_toJSString _ hlt

set_option maxRecDepth 100000 in
/-- Witness of `updateWorkshopPrice_mirrors`: the option `Advanced — $45`. -/
theorem updateWorkshopPrice_mirrors_witness :
    updateWorkshopPrice ⟨some "Advanced — $45", some "", some "", none, none, none, none⟩ =
      ⟨some "Advanced — $45", some "Price: $45", some "45", none, none, none, none⟩ :=
  (updateWorkshopPrice_mirrors
    ⟨some "Advanced — $45", some "", some "", none, none, none, none⟩ "Advanced — $45" ""
    rfl rfl).1.trans (by decide)

end Creative
